import Mathlib

/-!
Verification development for the CSP policy construction engine of
`csp-html-webpack-plugin`.

The JavaScript source (`plugin.js`, the `CspHtmlWebpackPlugin` class) is
shallowly embedded below.  Strings are Lean `String`s; character level
operations (the two regular expressions, `trim`, whitespace splitting) are
modelled on `List Char` and lifted to `String` at the boundaries.  External
collaborators (the `cheerio` document library, node's `crypto` module, the
webpack pipeline) are modelled as explicit parameters or, for the digests,
implemented from their published specification.
-/

/-! ### Character utilities -/

/-- The apostrophe character (used pervasively by CSP quoted keywords). -/
def quoteChar : Char := Char.ofNat 39

/-- Whitespace as matched by JavaScript `\s` and removed by `String.trim`:
space, tab, LF, VT, FF, CR, NBSP and the Unicode space/line separators. -/
def isJsWs (c : Char) : Bool :=
  c.toNat == 32 || c.toNat == 9 || c.toNat == 10 || c.toNat == 11 || c.toNat == 12 ||
  c.toNat == 13 || c.toNat == 160 || c.toNat == 5760 ||
  (8192 ≤ c.toNat && c.toNat ≤ 8202) ||
  c.toNat == 8232 || c.toNat == 8233 || c.toNat == 8239 ||
  c.toNat == 8287 || c.toNat == 12288 || c.toNat == 65279

/-- ASCII lower casing, the canonicalisation applied by a case-insensitive
JavaScript regular expression to the characters we match. -/
def toLowerA (c : Char) : Char :=
  if 65 ≤ c.toNat ∧ c.toNat ≤ 90 then Char.ofNat (c.toNat + 32) else c

/-! ### List-of-characters utilities shared by the regex models -/

/-- Exact prefix test on character lists. -/
def isPrefixList : List Char → List Char → Bool
  | [], _ => true
  | _ :: _, [] => false
  | a :: as, b :: bs => a == b && isPrefixList as bs

/-- Exact (case sensitive) substring occurrence, the model of JavaScript
`String.prototype.includes`. -/
def containsExact (pat : List Char) : List Char → Bool
  | [] => isPrefixList pat []
  | c :: cs => isPrefixList pat (c :: cs) || containsExact pat cs

/-- Case-insensitive literal match of `pat` against a prefix of the input,
the atom of the `/'strict-dynamic'/i` regular expression. -/
def litCI : List Char → List Char → Bool
  | [], _ => true
  | _ :: _, [] => false
  | p :: ps, c :: cs => toLowerA c == toLowerA p && litCI ps cs

/-- Case-insensitive substring occurrence. -/
def containsCI (pat : List Char) : List Char → Bool
  | [] => litCI pat []
  | c :: cs => litCI pat (c :: cs) || containsCI pat cs

/-! ### Models of the lodash helpers used by the plugin -/

/-- Model of lodash `compact` on string arrays: drops falsy entries, which
for strings means dropping the empty string. -/
def compact (xs : List String) : List String := xs.filter (fun s => s ≠ "")

/-- Worker for `uniq`: keep each element whose value has not been seen yet. -/
def uniqAux (seen : List String) : List String → List String
  | [] => []
  | x :: xs => if x ∈ seen then uniqAux seen xs else x :: uniqAux (x :: seen) xs

/-- Model of lodash `uniq`: de-duplication keeping first occurrences. -/
def uniq (xs : List String) : List String := uniqAux [] xs

/-- Model of JavaScript `Array.prototype.join(sep)`. -/
def joinStr (sep : String) : List String → String
  | [] => ""
  | [t] => t
  | t :: u :: ts => t ++ sep ++ joinStr sep (u :: ts)

/-! ### The policy data model -/

/-- A directive value as the plugin accepts it: either a single string or an
array of source-expression tokens.  No shape normalisation ever happens at
merge time; values are carried verbatim. -/
inductive DirValue where
  | str (s : String)
  | arr (xs : List String)
deriving DecidableEq, Repr

/-- A policy object: an ordered mapping from directive name to value
(JavaScript objects preserve string-key insertion order). -/
abbrev Policy := List (String × DirValue)

/-- Model of the JavaScript object spread `{...a, ...b}` on string-keyed
objects: the keys of `a` in place (values overridden by `b` where `b` also
defines the key), followed by the keys only `b` defines, in `b`'s order. -/
def spreadMerge {α : Type} (a b : List (String × α)) : List (String × α) :=
  a.map (fun kv => (kv.1, (List.lookup kv.1 b).getD kv.2)) ++
    b.filter (fun kv => (List.lookup kv.1 a).isNone)

/-- The built-in `defaultPolicy` object of the plugin source. -/
def defaultPolicy : Policy :=
  [("base-uri", .str "'self'"),
   ("object-src", .str "'none'"),
   ("script-src", .arr ["'unsafe-inline'", "'self'", "'unsafe-eval'"]),
   ("style-src", .arr ["'unsafe-inline'", "'self'", "'unsafe-eval'"])]

/-! ### Serialisation of a directive value (shared by `validatePolicy` and
`buildPolicy`): `Array.isArray(val) ? compact(uniq(val)).join(' ') : val` -/

/-- The `Array.isArray(policyObj[key]) ? compact(uniq(...)).join(' ') : ...`
expression shared by `validatePolicy` and `buildPolicy`. -/
def serializeVal : DirValue → String
  | .str s => s
  | .arr xs => joinStr " " (compact (uniq xs))

/-! ### Lemmas: spread merge lookup (claim C1 infrastructure) -/

theorem lookup_map_override {α : Type} (g : String → α → α) (a : List (String × α)) (k : String) :
    List.lookup k (a.map (fun kv => (kv.1, g kv.1 kv.2))) = (List.lookup k a).map (g k) := by
  induction a with
  | nil => rfl
  | cons kv a ih =>
    obtain ⟨k₁, v₁⟩ := kv
    by_cases h : k = k₁
    · subst h
      simp [List.lookup]
    · have hb : (k == k₁) = false := beq_false_of_ne h
      simp [List.lookup, hb, ih]

theorem lookup_append {α : Type} (l₁ l₂ : List (String × α)) (k : String) :
    List.lookup k (l₁ ++ l₂) =
      ((List.lookup k l₁).rec (List.lookup k l₂) (fun v => some v) : Option α) := by
  induction l₁ with
  | nil => rfl
  | cons kv l₁ ih =>
    obtain ⟨k₁, v₁⟩ := kv
    by_cases h : k = k₁
    · subst h; simp [List.lookup]
    · have hb : (k == k₁) = false := beq_false_of_ne h
      simp [List.lookup, hb, ih]

theorem lookup_filter_keep {α : Type} (q : String × α → Bool) (b : List (String × α)) (k : String)
    (hq : ∀ kv : String × α, kv.1 = k → q kv = true) :
    List.lookup k (b.filter q) = List.lookup k b := by
  induction b with
  | nil => rfl
  | cons kv b ih =>
    obtain ⟨k₁, v₁⟩ := kv
    by_cases h : k = k₁
    · subst h
      have : q (k, v₁) = true := hq (k, v₁) rfl
      simp [List.filter, this, List.lookup]
    · have hb : (k == k₁) = false := beq_false_of_ne h
      by_cases hqv : q (k₁, v₁) = true
      · simp [List.filter, hqv, List.lookup, hb, ih]
      · simp only [List.filter, Bool.not_eq_true] at hqv ⊢
        rw [hqv]
        simp [List.lookup, hb, ih]

/-- Lookup after a two-object spread: the right (higher precedence) object
wins, key by key, with whole values. -/
theorem lookup_spreadMerge {α : Type} (a b : List (String × α)) (k : String) :
    List.lookup k (spreadMerge a b) =
      ((List.lookup k b).rec (List.lookup k a) (fun v => some v) : Option α) := by
  unfold spreadMerge
  rw [lookup_append]
  rw [lookup_map_override (fun k₁ v => (List.lookup k₁ b).getD v)]
  cases ha : List.lookup k a with
  | some v =>
    cases hb : List.lookup k b with
    | some w => simp
    | none => simp
  | none =>
    rw [lookup_filter_keep _ b k]
    · cases hb : List.lookup k b with
      | some w => simp
      | none => simp
    · intro kv hkv
      rw [hkv, ha]
      rfl

/-! ### The `'strict-dynamic'` relocation regex

`buildPolicy` runs `val.replace(/\s?'strict-dynamic'\s?/gi, ' ')`.  The
scan below models the JavaScript global replace: leftmost match, replace
with a single space, continue after the match. -/

/-- The literal `'strict-dynamic'` token, as a string. -/
def sdStr : String := "'strict-dynamic'"

/-- The characters of the `'strict-dynamic'` literal. -/
def sdChars : List Char := sdStr.data

/-- Length consumed by an optional trailing `\s?` (greedy). -/
def wsOptLen : List Char → Nat
  | [] => 0
  | c :: _ => if isJsWs c then 1 else 0

/-- Attempt to match `/\s?'strict-dynamic'\s?/i` at the head of the input;
returns the number of characters the match consumes.  The greedy `\s?`
prefers to consume a whitespace character and backtracks if the literal
then fails. -/
def tryMatchSD : List Char → Option Nat
  | [] => none
  | c :: cs =>
    if isJsWs c then
      if litCI sdChars cs then some (1 + sdChars.length + wsOptLen (cs.drop sdChars.length))
      else if litCI sdChars (c :: cs) then
        some (sdChars.length + wsOptLen ((c :: cs).drop sdChars.length))
      else none
    else
      if litCI sdChars (c :: cs) then
        some (sdChars.length + wsOptLen ((c :: cs).drop sdChars.length))
      else none

/-- Fuelled global-replace scan; fuel at least the input length makes it
total on the input (each step consumes at least one character). -/
def replaceSDAux : Nat → List Char → List Char
  | _, [] => []
  | 0, l => l
  | fuel + 1, c :: cs =>
    match tryMatchSD (c :: cs) with
    | some n => ' ' :: replaceSDAux fuel ((c :: cs).drop n)
    | none => c :: replaceSDAux fuel cs

/-- The model of `val.replace(/\s?'strict-dynamic'\s?/gi, ' ')` on the
characters of `val`. -/
def replaceSDC (l : List Char) : List Char := replaceSDAux l.length l

/-- Remove trailing JavaScript whitespace. -/
def dropTrailingWs (l : List Char) : List Char := (l.reverse.dropWhile isJsWs).reverse

/-- Model of JavaScript `String.prototype.trim` on characters. -/
def jsTrimC (l : List Char) : List Char := dropTrailingWs (l.dropWhile isJsWs)

/-- One `key → "key value"` segment of `buildPolicy`, including the
strict-dynamic relocation branch. -/
def buildSegment (kv : String × DirValue) : String :=
  let val := serializeVal kv.2
  if containsExact sdChars val.data then
    let newVal := String.mk (jsTrimC (replaceSDC val.data)) ++ " " ++ sdStr
    kv.1 ++ " " ++ newVal
  else
    kv.1 ++ " " ++ val

/-- Model of `CspHtmlWebpackPlugin.buildPolicy`: serialise every directive
and join the segments with `"; "`. -/
def buildPolicy (policyObj : Policy) : String :=
  joinStr "; " (policyObj.map buildSegment)

/-! ### Whitespace tokenisation (used to state the serialisation claims) -/

/-- Fuelled splitter: break a character list at JavaScript whitespace,
dropping empty fragments. -/
def tokenizeAux : Nat → List Char → List (List Char)
  | _, [] => []
  | 0, _ => []
  | fuel + 1, c :: cs =>
    if isJsWs c then tokenizeAux fuel cs
    else (c :: cs.takeWhile (fun d => !isJsWs d)) ::
      tokenizeAux fuel (cs.dropWhile (fun d => !isJsWs d))

/-- Whitespace-delimited tokens of a character list. -/
def tokenizeC (l : List Char) : List (List Char) := tokenizeAux l.length l

/-- Whitespace-delimited tokens of a string. -/
def wsTokens (s : String) : List String := (tokenizeC s.data).map String.mk

/-! ### `validatePolicy` -/

/-- The fixed list of CSP static keyword sources checked by the validator. -/
def staticSources : List String :=
  ["self", "unsafe-inline", "unsafe-eval", "none", "strict-dynamic", "report-sample"]

/-- Drop an exact literal prefix, returning the remainder on success. -/
def dropExact : List Char → List Char → Option (List Char)
  | [], cs => some cs
  | _ :: _, [] => none
  | k :: ks, c :: cs => if c == k then dropExact ks cs else none

/-- Does `/\s<kw>\s/` match somewhere in the input?  (A whitespace character,
the keyword verbatim, then another whitespace character.) -/
def wsKwWs (kw : List Char) : List Char → Bool
  | [] => false
  | c :: cs =>
    (isJsWs c &&
      (match dropExact kw cs with
       | some (d :: _) => isJsWs d
       | some [] => false
       | none => false)) ||
    wsKwWs kw cs

/-- The exact violation message pushed onto `compilation.errors`. -/
def violationMsg (key source : String) : String :=
  "CSP: policy for " ++ key ++ " contains " ++ source ++
    " which should be wrapped in apostrophes"

/-- Model of `CspHtmlWebpackPlugin.validatePolicy`: for every directive,
serialise the value (array values de-duplicated and space-joined), pad it
with one space on each side, and report each static source whose unquoted
form occurs whitespace-bounded.  The messages are returned in the order the
source pushes them; the caller appends them to the compilation error list. -/
def validatePolicy (p : Policy) : List String :=
  (p.map (fun kv =>
    (staticSources.filter (fun src =>
      wsKwWs src.data (" " ++ serializeVal kv.2 ++ " ").data)).map
        (fun src => violationMsg kv.1 src))).flatten

/-! ### The URL-prefix extraction regex of `setNonce`

`policyStr.match(/https?:\/\/[^'"]+/g) || []` -/

/-- Is this character excluded by the `[^'"]` character class? -/
def isUrlStop (c : Char) : Bool := c == quoteChar || c == '"'

/-- Attempt to match `/https?:\/\/[^'"]+/` at the head of the input; returns
the matched characters and the remainder. -/
def urlMatchAt (l : List Char) : Option (List Char × List Char) :=
  let go : List Char → List Char → Option (List Char × List Char) := fun scheme rest =>
    let run := rest.takeWhile (fun c => !isUrlStop c)
    if run.isEmpty then none
    else some (scheme ++ run, rest.drop run.length)
  if isPrefixList "https://".data l then go "https://".data (l.drop 8)
  else if isPrefixList "http://".data l then go "http://".data (l.drop 7)
  else none

/-- Fuelled global scan for all URL matches, leftmost first, resuming after
each match. -/
def urlsAux : Nat → List Char → List String
  | _, [] => []
  | 0, _ => []
  | fuel + 1, c :: cs =>
    match urlMatchAt (c :: cs) with
    | some (m, rest) => String.mk m :: urlsAux fuel rest
    | none => urlsAux fuel cs

/-- Model of `policyStr.match(/https?:\/\/[^'"]+/g) || []`. -/
def urlsOf (s : String) : List String := urlsAux s.data.length s.data

/-! ### Elements and `setNonce` -/

/-- A document element as far as `setNonce` observes and mutates it: its
`src`, `href` and `nonce` attributes (`none` models an absent attribute,
i.e. jQuery-style `attr` returning `undefined`). -/
structure Elem where
  src : Option String
  href : Option String
  nonce : Option String
deriving DecidableEq, Repr

/-- Model of `$(element).attr('src') || $(element).attr('href')`: JavaScript
`||` falls through on the falsy values `undefined` and `""`. -/
def srcOrHref (e : Elem) : Option String :=
  match e.src with
  | some s => if s = "" then e.href else some s
  | none => e.href

/-- Model of `String.prototype.startsWith`. -/
def jsStartsWith (s u : String) : Bool := isPrefixList u.data s.data

/-- The message of the TypeError raised when `srcOrHref` is `undefined` and
the whitelist loop calls `startsWith` on it. -/
def startsWithTypeError : String :=
  "TypeError: Cannot read properties of undefined (reading 'startsWith')"

/-- The message of the TypeError raised when `this.policy[policyName]` is
`undefined` and `setNonce` calls `.match` on it. -/
def matchTypeError : String :=
  "TypeError: Cannot read properties of undefined (reading 'match')"

/-- The `Array.isArray(policy) ? policy.join(' ') : policy` expression of
`setNonce` (unlike `buildPolicy`, no de-duplication or compaction here). -/
def serializeValJoin : DirValue → String
  | .str s => s
  | .arr xs => joinStr " " xs

/-- The `$(selector).map(...)` body of `setNonce`, run over the matched
elements in document order.  `gen` is the model of `createNonce` (node's
`crypto.randomBytes(16).toString('base64')`), indexed by a counter so that
successive calls draw successive values.  Returns the nonce tokens, the
elements after attribute writes, and the advanced counter. -/
def nonceLoop (urls : List String) (hasStrictDynamic : Bool) (gen : Nat → String) :
    Nat → List Elem → Except String (List String × List Elem × Nat)
  | ctr, [] => .ok ([], [], ctr)
  | ctr, e :: rest =>
    let issue : Except String (List String × List Elem × Nat) :=
      let nonce := gen ctr
      match nonceLoop urls hasStrictDynamic gen (ctr + 1) rest with
      | .ok (toks, es, ctr') =>
        .ok (("'nonce-" ++ nonce ++ "'") :: toks, { e with nonce := some nonce } :: es, ctr')
      | .error msg => .error msg
    if hasStrictDynamic then issue
    else
      match srcOrHref e with
      | none =>
        match urls with
        | [] => issue
        | _ :: _ => .error startsWithTypeError
      | some s =>
        if urls.any (fun u => jsStartsWith s u) then
          match nonceLoop urls hasStrictDynamic gen ctr rest with
          | .ok (toks, es, ctr') => .ok (toks, e :: es, ctr')
          | .error msg => .error msg
        else issue

/-- Model of `CspHtmlWebpackPlugin.setNonce`.  `elems` are the elements the
selector matches (in document order). -/
def setNonce (nonceEnabled : List (String × Bool)) (policy : Policy) (gen : Nat → String)
    (ctr : Nat) (policyName : String) (elems : List Elem) :
    Except String (List String × List Elem × Nat) :=
  if List.lookup policyName nonceEnabled == some false then .ok ([], elems, ctr)
  else
    match List.lookup policyName policy with
    | none => .error matchTypeError
    | some v =>
      let policyStr := serializeValJoin v
      let urls := urlsOf policyStr
      let hasStrictDynamic := containsExact sdChars policyStr.data
      nonceLoop urls hasStrictDynamic gen ctr elems

/-! ### The hash function

Modelled from the spec: node's `crypto.createHash(method).update(str,
'utf8').digest('base64')` is an external collaborator ("computes a
cryptographic digest of the UTF-8 byte content using the selected
algorithm (one of three allowed: a 256-bit, 384-bit, or 512-bit digest),
base64-encodes it").  The three digests are implemented below from FIPS
180-4; the round constants and initial vectors are derived, as the
standard defines them, from the fractional parts of the square and cube
roots of the first primes. -/

/-- Truncate to a machine word of `bits` bits. -/
def wTrunc (bits n : Nat) : Nat := n % (2 ^ bits)

/-- Right-rotation within a word of `bits` bits. -/
def rotr (bits n k : Nat) : Nat := wTrunc bits ((n >>> k) ||| (n <<< (bits - k)))

/-- Descend over the bits of a candidate root, keeping `f r ≤ n` invariant:
computes the largest `r < 2^fuel` with `f r ≤ n` for monotone `f`. -/
def bitDescend (f : Nat → Nat) (n : Nat) : Nat → Nat → Nat
  | 0, r => r
  | k + 1, r =>
    let r' := r + (1 <<< k)
    bitDescend f n k (if f r' ≤ n then r' else r)

/-- Integer square root by bit descent (kernel-reducible). -/
def intSqrt (bits n : Nat) : Nat := bitDescend (fun r => r * r) n bits 0

/-- Integer cube root by bit descent (kernel-reducible). -/
def intCbrt (bits n : Nat) : Nat := bitDescend (fun r => r * r * r) n bits 0

/-- Primality by trial division (kernel-reducible). -/
def isPrimeB (n : Nat) : Bool :=
  2 ≤ n && (List.range n).all (fun d => d < 2 || decide (n % d ≠ 0))

/-- The primes below 410: at least the first eighty primes, as FIPS 180-4
uses them for the SHA-2 constants. -/
def sha2Primes : List Nat := (List.range 410).filter isPrimeB

/-- SHA-256 round constants: first 32 bits of the fractional parts of the
cube roots of the first 64 primes. -/
def sha256K : List Nat := (sha2Primes.take 64).map (fun p => intCbrt 40 (p * 2 ^ 96) % 2 ^ 32)

/-- SHA-256 initial hash value: fractional parts of the square roots of the
first 8 primes. -/
def sha256IV : List Nat := (sha2Primes.take 8).map (fun p => intSqrt 40 (p * 2 ^ 64) % 2 ^ 32)

/-- SHA-512 round constants: first 64 bits of the fractional parts of the
cube roots of the first 80 primes. -/
def sha512K : List Nat := (sha2Primes.take 80).map (fun p => intCbrt 72 (p * 2 ^ 192) % 2 ^ 64)

/-- SHA-512 initial hash value. -/
def sha512IV : List Nat := (sha2Primes.take 8).map (fun p => intSqrt 72 (p * 2 ^ 128) % 2 ^ 64)

/-- SHA-384 initial hash value: fractional parts of the square roots of the
ninth through sixteenth primes. -/
def sha384IV : List Nat := ((sha2Primes.drop 8).take 8).map (fun p => intSqrt 72 (p * 2 ^ 128) % 2 ^ 64)

/-- Everything that distinguishes one SHA-2 family member from another. -/
structure Sha2Params where
  wordBits : Nat
  rounds : Nat
  roundK : List Nat
  iv : List Nat
  bigS0 : Nat × Nat × Nat
  bigS1 : Nat × Nat × Nat
  smallS0 : Nat × Nat × Nat
  smallS1 : Nat × Nat × Nat
  outBytes : Nat

def sha256Params : Sha2Params :=
  ⟨32, 64, sha256K, sha256IV, (2, 13, 22), (6, 11, 25), (7, 18, 3), (17, 19, 10), 32⟩

def sha384Params : Sha2Params :=
  ⟨64, 80, sha512K, sha384IV, (28, 34, 39), (14, 18, 41), (1, 8, 7), (19, 61, 6), 48⟩

def sha512Params : Sha2Params :=
  ⟨64, 80, sha512K, sha512IV, (28, 34, 39), (14, 18, 41), (1, 8, 7), (19, 61, 6), 64⟩

/-- Big-endian byte decomposition of a value into `nbytes` bytes. -/
def bigEndianBytes (nbytes value : Nat) : List Nat :=
  (List.range nbytes).map (fun i => (value >>> (8 * (nbytes - 1 - i))) % 256)

/-- Fuelled chunking of a list into groups of `n` elements. -/
def chunksAux {α : Type} (n : Nat) : Nat → List α → List (List α)
  | _, [] => []
  | 0, _ => []
  | fuel + 1, l => l.take n :: chunksAux n fuel (l.drop n)

/-- Chunk a list into groups of `n` elements (`n > 0` on all call sites). -/
def chunks {α : Type} (n : Nat) (l : List α) : List (List α) := chunksAux n l.length l

/-- FIPS 180-4 message padding: append `0x80`, zeros, and the bit length
(big-endian, in a length field an eighth of the block size). -/
def sha2Pad (blockBytes : Nat) (msg : List Nat) : List Nat :=
  let lenField := blockBytes / 8
  let used := (msg.length + 1 + lenField) % blockBytes
  let zeros := (blockBytes - used) % blockBytes
  msg ++ [128] ++ List.replicate zeros 0 ++ bigEndianBytes lenField (8 * msg.length)

/-- Assemble big-endian words of `wordBytes` bytes each. -/
def bytesToWords (wordBytes : Nat) (bytes : List Nat) : List Nat :=
  (chunks wordBytes bytes).map (fun grp => grp.foldl (fun acc b => acc * 256 + b) 0)

/-- Extend the sixteen block words to the full message schedule. -/
def sha2Extend (P : Sha2Params) : Nat → List Nat → List Nat
  | 0, ws => ws
  | k + 1, ws =>
    let bits := P.wordBits
    let g := fun (i : Nat) => ws.getD (ws.length - i) 0
    let s0 := rotr bits (g 15) P.smallS0.1 ^^^ rotr bits (g 15) P.smallS0.2.1 ^^^ (g 15 >>> P.smallS0.2.2)
    let s1 := rotr bits (g 2) P.smallS1.1 ^^^ rotr bits (g 2) P.smallS1.2.1 ^^^ (g 2 >>> P.smallS1.2.2)
    sha2Extend P k (ws ++ [wTrunc bits (s1 + g 7 + s0 + g 16)])

/-- One round of the SHA-2 compression function. -/
def sha2Round (P : Sha2Params) (st : List Nat) (kw : Nat × Nat) : List Nat :=
  match st with
  | [a, b, c, d, e, f, g, h] =>
    let bits := P.wordBits
    let mask := 2 ^ bits - 1
    let bigS1 := rotr bits e P.bigS1.1 ^^^ rotr bits e P.bigS1.2.1 ^^^ rotr bits e P.bigS1.2.2
    let ch := (e &&& f) ^^^ ((e ^^^ mask) &&& g)
    let t1 := wTrunc bits (h + bigS1 + ch + kw.1 + kw.2)
    let bigS0 := rotr bits a P.bigS0.1 ^^^ rotr bits a P.bigS0.2.1 ^^^ rotr bits a P.bigS0.2.2
    let maj := (a &&& b) ^^^ (a &&& c) ^^^ (b &&& c)
    let t2 := wTrunc bits (bigS0 + maj)
    [wTrunc bits (t1 + t2), a, b, c, wTrunc bits (d + t1), e, f, g]
  | st => st

/-- Process one message block. -/
def sha2Block (P : Sha2Params) (st : List Nat) (blockWords : List Nat) : List Nat :=
  let ws := sha2Extend P (P.rounds - 16) blockWords
  let final := (P.roundK.zip ws).foldl (sha2Round P) st
  st.zipWith (fun x y => wTrunc P.wordBits (x + y)) final

/-- The full digest of a byte sequence under one SHA-2 family member. -/
def sha2Digest (P : Sha2Params) (msg : List Nat) : List Nat :=
  let blockBytes := 2 * P.wordBits
  let blocks := chunks blockBytes (sha2Pad blockBytes msg)
  let final := blocks.foldl (fun st blk => sha2Block P st (bytesToWords (P.wordBits / 8) blk)) P.iv
  ((final.map (bigEndianBytes (P.wordBits / 8))).flatten).take P.outBytes

/-- Dispatch on the configured hashing method (the constructor has already
established that the method is one of the three below). -/
def cryptoDigest (method : String) (msg : List Nat) : List Nat :=
  if method = "sha256" then sha2Digest sha256Params msg
  else if method = "sha384" then sha2Digest sha384Params msg
  else if method = "sha512" then sha2Digest sha512Params msg
  else []

/-- UTF-8 encoding of one character. -/
def utf8Char (c : Char) : List Nat :=
  let n := c.toNat
  if n < 128 then [n]
  else if n < 2048 then [192 ||| (n >>> 6), 128 ||| (n &&& 63)]
  else if n < 65536 then
    [224 ||| (n >>> 12), 128 ||| ((n >>> 6) &&& 63), 128 ||| (n &&& 63)]
  else
    [240 ||| (n >>> 18), 128 ||| ((n >>> 12) &&& 63), 128 ||| ((n >>> 6) &&& 63), 128 ||| (n &&& 63)]

/-- UTF-8 encoding of a string (the `update(str, 'utf8')` step). -/
def utf8Encode (s : String) : List Nat := (s.data.map utf8Char).flatten

/-- The base64 alphabet. -/
def b64Alphabet : List Char :=
  "ABCDEFGHIJKLMNOPQRSTUVWXYZabcdefghijklmnopqrstuvwxyz0123456789+/".data

/-- Character for a six-bit group. -/
def b64Char (i : Nat) : Char := b64Alphabet.getD i 'A'

/-- Standard base64 with `=` padding (the `digest('base64')` step). -/
def base64 : List Nat → List Char
  | [] => []
  | [a] => [b64Char (a >>> 2), b64Char ((a &&& 3) <<< 4), '=', '=']
  | [a, b] => [b64Char (a >>> 2), b64Char (((a &&& 3) <<< 4) ||| (b >>> 4)),
               b64Char ((b &&& 15) <<< 2), '=']
  | a :: b :: c :: rest =>
    b64Char (a >>> 2) :: b64Char (((a &&& 3) <<< 4) ||| (b >>> 4)) ::
      b64Char (((b &&& 15) <<< 2) ||| (c >>> 6)) :: b64Char (c &&& 63) :: base64 rest

/-- Model of `CspHtmlWebpackPlugin.hash`: digest the UTF-8 bytes with the
configured method, base64, and wrap as a quoted CSP token. -/
def hash (hashingMethod : String) (str : String) : String :=
  let hashed := String.mk (base64 (cryptoDigest hashingMethod (utf8Encode str)))
  "'" ++ hashingMethod ++ "-" ++ hashed ++ "'"

/-- Model of `CspHtmlWebpackPlugin.getShas`: hash the inner content of every
element the selector matches, unless hashing is disabled for the directive. -/
def getShas (hashEnabled : List (String × Bool)) (hashingMethod : String)
    (policyName : String) (contents : List String) : List String :=
  if List.lookup policyName hashEnabled == some false then []
  else contents.map (hash hashingMethod)

/-! ### Plugin configuration and construction -/

/-- The per-document data the plugin reads off `htmlPluginData`: the raw
document text and the `plugin.options.cspPlugin` / `plugin.options.xhtml`
overrides (each `get(...)` default is the value used when the option is
absent). -/
structure HtmlData where
  html : String
  cspPolicy : Policy
  cspHashEnabled : List (String × Bool)
  cspNonceEnabled : List (String × Bool)
  cspEnabled : Option Bool
  xhtml : Bool
deriving Repr

/-- The `enabled` option: a boolean or a per-document callback (the source
distinguishes the two with `isFunction`). -/
inductive EnabledOpt where
  | flag (b : Bool)
  | pred (f : HtmlData → Bool)

/-- The resolved additional options of a plugin instance (the `processFn`
option is an external callback and enters the model only through
`processCsp`'s default behaviour). -/
structure Opts where
  enabled : EnabledOpt
  hashingMethod : String
  hashEnabled : List (String × Bool)
  nonceEnabled : List (String × Bool)

/-- The `defaultAdditionalOpts` object of the source. -/
def defaultAdditionalOpts : Opts :=
  { enabled := .flag true
    hashingMethod := "sha256"
    hashEnabled := [("script-src", true), ("style-src", true)]
    nonceEnabled := [("script-src", true), ("style-src", true)] }

/-- User-supplied additional options; `none` models an absent key, so that
`{...defaultAdditionalOpts, ...additionalOpts}` becomes `getD`. -/
structure AdditionalOpts where
  enabled : Option EnabledOpt
  hashingMethod : Option String
  hashEnabled : Option (List (String × Bool))
  nonceEnabled : Option (List (String × Bool))

/-- A constructed plugin instance: the frozen instance policy and options. -/
structure PluginInstance where
  cspPluginPolicy : Policy
  opts : Opts

/-- The list of hashing methods the constructor accepts. -/
def validHashes : List String := ["sha256", "sha384", "sha512"]

/-- Model of the `CspHtmlWebpackPlugin` constructor: merge the additional
options over the defaults, then fail if the hashing method is not one of
the three valid digests. -/
def constructPlugin (policy : Policy) (additionalOpts : AdditionalOpts) :
    Except String PluginInstance :=
  let opts : Opts :=
    { enabled := additionalOpts.enabled.getD defaultAdditionalOpts.enabled
      hashingMethod := additionalOpts.hashingMethod.getD defaultAdditionalOpts.hashingMethod
      hashEnabled := additionalOpts.hashEnabled.getD defaultAdditionalOpts.hashEnabled
      nonceEnabled := additionalOpts.nonceEnabled.getD defaultAdditionalOpts.nonceEnabled }
  if validHashes.contains opts.hashingMethod then
    .ok { cspPluginPolicy := policy, opts := opts }
  else
    .error ("'" ++ opts.hashingMethod ++ "' is not a valid hashing method")

/-- Model of `CspHtmlWebpackPlugin.isEnabled`: the per-document
`cspPlugin.enabled === false` check, then the instance flag or callback. -/
def isEnabled (opts : Opts) (d : HtmlData) : Bool :=
  match d.cspEnabled with
  | some false => false
  | _ =>
    match opts.enabled with
    | .pred f => f d
    | .flag b => b

/-- The per-document state `mergeOptions` stores on the instance. -/
structure MergedPlugin where
  policy : Policy
  hashEnabled : List (String × Bool)
  nonceEnabled : List (String × Bool)
  opts : Opts

/-- Model of `CspHtmlWebpackPlugin.mergeOptions`: three-tier spreads for the
policy and the two enablement maps, validation of the merged policy with
the violations appended to the compilation error list, then normal
continuation (the value returned models `compileCb(null, htmlPluginData)`
having been reached with the listed compilation errors). -/
def mergeOptions (inst : PluginInstance) (d : HtmlData) (compilationErrors : List String) :
    MergedPlugin × List String :=
  let userPolicy := spreadMerge inst.cspPluginPolicy d.cspPolicy
  let policy := spreadMerge defaultPolicy userPolicy
  let errors := compilationErrors ++ validatePolicy policy
  ({ policy := policy
     hashEnabled := spreadMerge inst.opts.hashEnabled d.cspHashEnabled
     nonceEnabled := spreadMerge inst.opts.nonceEnabled d.cspNonceEnabled
     opts := inst.opts }, errors)

/-! ### The document and `processCsp` -/

/-- The parsed document as far as `processCsp` observes it through cheerio:
the four selector results and the CSP meta tag's `content` attribute. -/
structure JsDoc where
  scriptSrcElems : List Elem
  styleLinkElems : List Elem
  inlineScripts : List String
  inlineStyles : List String
  metaContent : Option String
deriving Repr

/-- The cheerio library is an external collaborator: parsing and
serialisation are abstract functions supplied by the host. -/
structure Cheerio where
  parse : String → JsDoc
  renderHtml : JsDoc → String
  renderXml : JsDoc → String

/-- Model of `flatten([this.policy['script-src']])`: an array stays itself,
a string becomes a one-element array.  (For an undefined directive the
JavaScript value is `[undefined]`, whose sole element the later
`compact` drops, so the empty list is observationally faithful.) -/
def flattenVal : Option DirValue → List String
  | some (.arr xs) => xs
  | some (.str s) => [s]
  | none => []

/-- Model of `CspHtmlWebpackPlugin.processCsp` with the default `processFn`:
parse, return the data untouched when disabled, otherwise collect nonces
and hashes, build the policy, write it into the meta tag (creating the tag
when absent) and re-serialise the document. -/
def processCsp (ch : Cheerio) (gen : Nat → String) (mp : MergedPlugin) (d : HtmlData) :
    Except String HtmlData :=
  let doc := ch.parse d.html
  if !isEnabled mp.opts d then .ok d
  else
    match setNonce mp.nonceEnabled mp.policy gen 0 "script-src" doc.scriptSrcElems with
    | .error e => .error e
    | .ok (scriptNonce, scriptElems, ctr₁) =>
      match setNonce mp.nonceEnabled mp.policy gen ctr₁ "style-src" doc.styleLinkElems with
      | .error e => .error e
      | .ok (styleNonce, styleElems, _) =>
        let scriptShas := getShas mp.hashEnabled mp.opts.hashingMethod "script-src" doc.inlineScripts
        let styleShas := getShas mp.hashEnabled mp.opts.hashingMethod "style-src" doc.inlineStyles
        let builtPolicy := buildPolicy (spreadMerge mp.policy
          [("script-src", .arr (flattenVal (List.lookup "script-src" mp.policy) ++ scriptShas ++ scriptNonce)),
           ("style-src", .arr (flattenVal (List.lookup "style-src" mp.policy) ++ styleShas ++ styleNonce))])
        let doc' := { doc with
          scriptSrcElems := scriptElems
          styleLinkElems := styleElems
          metaContent := some builtPolicy }
        .ok { d with html := if d.xhtml then ch.renderXml doc' else ch.renderHtml doc' }

/-! ## Claim C1: three-tier merge precedence -/

/-- Claim C1: for every default policy `D`, plugin-instance policy `A` and
per-document policy `B`, the effective policy (the two nested spreads of
`mergeOptions`) maps each directive key to `B`'s value if `B` defines it,
else `A`'s, else `D`'s, replacing the whole value verbatim — a `DirValue`
is carried unchanged, never merged element-wise and never reshaped. -/
theorem claim_C1_merge_precedence (D A B : Policy) (k : String) :
    List.lookup k (spreadMerge D (spreadMerge A B)) =
      match List.lookup k B with
      | some v => some v
      | none =>
        match List.lookup k A with
        | some v => some v
        | none => List.lookup k D := by
  rw [lookup_spreadMerge, lookup_spreadMerge]
  cases List.lookup k B <;> cases List.lookup k A <;> rfl

/-! ## Claim C4: validator detection boundary -/

/-- Claim C4: `validatePolicy` records the violation message for a directive
and keyword exactly when the unquoted keyword occurs whitespace-bounded in
the space-padded serialised directive value; in particular the bare array
element `self` is flagged while the quoted `'self'` is not. -/
theorem claim_C4_validator_boundary :
    (∀ (p : Policy) (msg : String),
      msg ∈ validatePolicy p ↔
        ∃ key v kw, (key, v) ∈ p ∧ kw ∈ staticSources ∧
          wsKwWs kw.data (" " ++ serializeVal v ++ " ").data = true ∧
          msg = violationMsg key kw) ∧
    violationMsg "script-src" "self" ∈ validatePolicy [("script-src", .arr ["self"])] ∧
    validatePolicy [("script-src", .arr ["'self'"])] = [] := by
  refine ⟨?_, by decide, by decide⟩
  intro p msg
  constructor
  · intro h
    unfold validatePolicy at h
    rw [List.mem_flatten] at h
    obtain ⟨l, hl, hm⟩ := h
    rw [List.mem_map] at hl
    obtain ⟨kv, hkv, rfl⟩ := hl
    rw [List.mem_map] at hm
    obtain ⟨src, hsrc, rfl⟩ := hm
    rw [List.mem_filter] at hsrc
    exact ⟨kv.1, kv.2, src, by simpa using hkv, hsrc.1, hsrc.2, rfl⟩
  · rintro ⟨key, v, kw, hkv, hkw, hws, rfl⟩
    unfold validatePolicy
    rw [List.mem_flatten]
    refine ⟨_, List.mem_map_of_mem _ hkv, ?_⟩
    exact List.mem_map_of_mem _ (List.mem_filter.mpr ⟨hkw, hws⟩)

/-! ## Claim C5: disabled means untouched -/

theorem isEnabled_false_cases (opts : Opts) (d : HtmlData)
    (h : d.cspEnabled = some false ∨ opts.enabled = .flag false ∨
      ∃ f, opts.enabled = .pred f ∧ f d = false) :
    isEnabled opts d = false := by
  unfold isEnabled
  rcases h with h | h | ⟨f, hf, hfd⟩
  · rw [h]
  · rw [h]
    rcases d.cspEnabled with _ | b
    · rfl
    · cases b <;> rfl
  · rw [hf]
    rcases d.cspEnabled with _ | b
    · exact hfd
    · cases b
      · rfl
      · exact hfd

/-- Claim C5: when the plugin is disabled for a document — the per-document
`cspPlugin.enabled` option is `false`, or the instance `enabled` option is
the boolean `false` or a callback returning `false` — `processCsp` returns
the `htmlPluginData` it was given, identically: no meta tag is created,
rewritten or removed, and no nonce attribute is written. -/
theorem claim_C5_disabled_untouched (ch : Cheerio) (gen : Nat → String) (mp : MergedPlugin)
    (d : HtmlData)
    (h : d.cspEnabled = some false ∨ mp.opts.enabled = .flag false ∨
      ∃ f, mp.opts.enabled = .pred f ∧ f d = false) :
    processCsp ch gen mp d = .ok d := by
  unfold processCsp
  rw [isEnabled_false_cases mp.opts d h]
  rfl

/-- Witness for claim C5 at a concrete disabled instance. -/
theorem claim_C5_disabled_untouched_witness :
    processCsp ⟨fun _ => ⟨[], [], [], [], none⟩, fun _ => "", fun _ => ""⟩ (fun _ => "n")
      ⟨[], [], [], ⟨.flag false, "sha256", [], []⟩⟩ ⟨"<html></html>", [], [], [], none, false⟩ =
      .ok ⟨"<html></html>", [], [], [], none, false⟩ :=
  claim_C5_disabled_untouched _ _ _ _ (Or.inr (Or.inl rfl))

/-! ## Claim C6: hash token format and determinism -/

set_option maxRecDepth 100000 in
/-- Claim C6: for each of the three valid methods `hash` returns the quoted
token built from the method name and the base64 of the digest of the UTF-8
bytes; equal inputs give equal tokens; and for sha256 the hash of the
empty string is the published constant. -/
theorem claim_C6_hash_token :
    (∀ m s, m ∈ validHashes →
      hash m s = "'" ++ m ++ "-" ++ String.mk (base64 (cryptoDigest m (utf8Encode s))) ++ "'") ∧
    (∀ m s t, s = t → hash m s = hash m t) ∧
    hash "sha256" "" = "'sha256-47DEQpj8HBSa+/TImW+5JCeuQeRkm5NMpJWZG3hSuFU='" := by
  refine ⟨fun m s _ => rfl, fun m s t h => by rw [h], ?_⟩
  decide

/-- Witness for claim C6 at a concrete method and input. -/
theorem claim_C6_hash_token_witness :
    hash "sha384" "x" =
      "'" ++ "sha384" ++ "-" ++ String.mk (base64 (cryptoDigest "sha384" (utf8Encode "x"))) ++ "'" :=
  claim_C6_hash_token.1 "sha384" "x" (by decide)

/-! ## Claim C8: configuration error raised iff invalid hashing method -/

theorem nonceLoop_error_msg (urls : List String) (hasSD : Bool) (gen : Nat → String)
    (elems : List Elem) :
    ∀ ctr e, nonceLoop urls hasSD gen ctr elems = .error e → e = startsWithTypeError := by
  induction elems with
  | nil => intro ctr e h; simp [nonceLoop] at h
  | cons a rest ih =>
    intro ctr e h
    simp only [nonceLoop] at h
    split at h
    · cases hrec : nonceLoop urls hasSD gen (ctr + 1) rest with
      | ok r => obtain ⟨t, es, c⟩ := r; rw [hrec] at h; simp at h
      | error msg =>
        rw [hrec] at h; simp only [Except.error.injEq] at h; exact h ▸ ih _ msg hrec
    · split at h
      · split at h
        · cases hrec : nonceLoop [] hasSD gen (ctr + 1) rest with
          | ok r => obtain ⟨t, es, c⟩ := r; rw [hrec] at h; simp at h
          | error msg =>
            rw [hrec] at h; simp only [Except.error.injEq] at h; exact h ▸ ih _ msg hrec
        · simp only [Except.error.injEq] at h; exact h.symm
      · split at h
        · cases hrec : nonceLoop urls hasSD gen ctr rest with
          | ok r => obtain ⟨t, es, c⟩ := r; rw [hrec] at h; simp at h
          | error msg =>
            rw [hrec] at h; simp only [Except.error.injEq] at h; exact h ▸ ih _ msg hrec
        · cases hrec : nonceLoop urls hasSD gen (ctr + 1) rest with
          | ok r => obtain ⟨t, es, c⟩ := r; rw [hrec] at h; simp at h
          | error msg =>
            rw [hrec] at h; simp only [Except.error.injEq] at h; exact h ▸ ih _ msg hrec

theorem setNonce_error_msg (ne : List (String × Bool)) (pol : Policy) (gen : Nat → String)
    (ctr : Nat) (name : String) (elems : List Elem) (e : String)
    (h : setNonce ne pol gen ctr name elems = .error e) :
    e = startsWithTypeError ∨ e = matchTypeError := by
  unfold setNonce at h
  by_cases hen : (List.lookup name ne == some false) = true
  · rw [if_pos hen] at h; simp at h
  · rw [if_neg hen] at h
    cases hv : List.lookup name pol with
    | none => rw [hv] at h; simp only [Except.error.injEq] at h; exact Or.inr h.symm
    | some v =>
      rw [hv] at h
      exact Or.inl (nonceLoop_error_msg _ _ _ _ _ _ h)

theorem processCsp_error_msg (ch : Cheerio) (gen : Nat → String) (mp : MergedPlugin)
    (d : HtmlData) (e : String) (h : processCsp ch gen mp d = .error e) :
    e = startsWithTypeError ∨ e = matchTypeError := by
  unfold processCsp at h
  by_cases hen : isEnabled mp.opts d = true
  · rw [hen] at h
    simp only [Bool.not_true, Bool.false_eq_true, if_false] at h
    cases h1 : setNonce mp.nonceEnabled mp.policy gen 0 "script-src"
        (ch.parse d.html).scriptSrcElems with
    | error e1 =>
      rw [h1] at h
      simp only [Except.error.injEq] at h
      exact h ▸ setNonce_error_msg _ _ _ _ _ _ _ h1
    | ok r1 =>
      obtain ⟨t1, es1, c1⟩ := r1
      rw [h1] at h
      simp only at h
      cases h2 : setNonce mp.nonceEnabled mp.policy gen c1 "style-src"
          (ch.parse d.html).styleLinkElems with
      | error e2 =>
        rw [h2] at h
        simp only [Except.error.injEq] at h
        exact h ▸ setNonce_error_msg _ _ _ _ _ _ _ h2
      | ok r2 =>
        obtain ⟨t2, es2, c2⟩ := r2
        rw [h2] at h
        simp at h
  · rw [Bool.not_eq_true] at hen
    rw [hen] at h
    simp at h

/-- The first character of the invalid-hashing-method message is a quote, so
it can never coincide with a TypeError message raised during processing. -/
theorem hashing_msg_not_typeerror (m : String) :
    ("'" ++ m ++ "' is not a valid hashing method") ≠ startsWithTypeError ∧
    ("'" ++ m ++ "' is not a valid hashing method") ≠ matchTypeError := by
  constructor <;>
  · intro h
    have hdata := congrArg String.data h
    rw [String.data_append, String.data_append] at hdata
    have h0 : (("'".data ++ m.data) ++ "' is not a valid hashing method".data).head? =
        some quoteChar := by
      rw [show "'".data = [quoteChar] from by decide]
      simp
    rw [hdata] at h0
    exact absurd h0 (by decide)

/-- Claim C8: the constructor fails with exactly the message
`'<method>' is not a valid hashing method` precisely when the effective
hashing method (the user option over the `sha256` default) is not one of
sha256, sha384 or sha512; and per-document processing can only ever fail
with a TypeError, never with the configuration message, so the
configuration error cannot arise during document processing. -/
theorem claim_C8_constructor_raises_iff :
    (∀ (p : Policy) (a : AdditionalOpts) (e : String),
      constructPlugin p a = .error e ↔
        (a.hashingMethod.getD "sha256") ∉ validHashes ∧
        e = "'" ++ a.hashingMethod.getD "sha256" ++ "' is not a valid hashing method") ∧
    (∀ ch gen mp d e, processCsp ch gen mp d = .error e →
      ∀ m : String, e ≠ "'" ++ m ++ "' is not a valid hashing method") := by
  constructor
  · intro p a e
    unfold constructPlugin
    simp only [defaultAdditionalOpts]
    by_cases hc : (a.hashingMethod.getD "sha256") ∈ validHashes
    · have : validHashes.contains (a.hashingMethod.getD "sha256") = true := by
        rw [List.contains]; exact List.elem_iff.mpr hc
      rw [if_pos this]
      simp [hc]
    · have : validHashes.contains (a.hashingMethod.getD "sha256") = false := by
        rw [List.contains]
        rw [Bool.eq_false_iff]
        intro hel
        exact hc (List.elem_iff.mp hel)
      rw [this]
      simp only [Bool.false_eq_true, if_false, Except.error.injEq]
      constructor
      · intro he; exact ⟨hc, he.symm⟩
      · intro ⟨_, he⟩; exact he.symm
  · intro ch gen mp d e h m hm
    rcases processCsp_error_msg ch gen mp d e h with h1 | h1
    · exact (hashing_msg_not_typeerror m).1 (hm ▸ h1 ▸ rfl)
    · exact (hashing_msg_not_typeerror m).2 (hm ▸ h1 ▸ rfl)

/-- Witness for claim C8: an invalid method is rejected with the exact
message, a valid one is accepted. -/
theorem claim_C8_constructor_raises_iff_witness :
    constructPlugin [] ⟨none, some "md5", none, none⟩ =
      .error "'md5' is not a valid hashing method" := by
  have h := (claim_C8_constructor_raises_iff.1 [] ⟨none, some "md5", none, none⟩
    "'md5' is not a valid hashing method").mpr
  exact h ⟨by decide, by decide⟩

/-! ## Claim C10: `setNonce` is not total -/

theorem nonceLoop_missing_attr_error (u : String) (us : List String) (gen : Nat → String)
    (elems : List Elem) :
    ∀ ctr, (∃ e ∈ elems, srcOrHref e = none) →
      nonceLoop (u :: us) false gen ctr elems = .error startsWithTypeError := by
  induction elems with
  | nil => intro ctr hex; obtain ⟨e, he, _⟩ := hex; simp at he
  | cons a rest ih =>
    intro ctr hex
    obtain ⟨e0, he0, hnone⟩ := hex
    simp only [nonceLoop, Bool.false_eq_true, if_false]
    rcases List.mem_cons.mp he0 with rfl | hrest
    · rw [hnone]
    · cases hso : srcOrHref a with
      | none => rfl
      | some s =>
        simp only
        by_cases hany : ((u :: us).any (fun x => jsStartsWith s x)) = true
        · rw [if_pos hany, ih ctr ⟨e0, hrest, hnone⟩]
        · rw [if_neg hany, ih (ctr + 1) ⟨e0, hrest, hnone⟩]

/-- Claim C10 (implicit): when nonce generation is enabled for a directive,
the directive value yields at least one extracted URL prefix and does not
contain `'strict-dynamic'`, and some matched element has neither a usable
`src` nor an `href` attribute, `setNonce` raises the `startsWith`
TypeError instead of returning a token list; and this error branch is
reachable through `processCsp` itself on a concrete document. -/
theorem claim_C10_setNonce_not_total :
    (∀ (ne : List (String × Bool)) (pol : Policy) (gen : Nat → String) (ctr : Nat)
      (name : String) (elems : List Elem) (v : DirValue),
      List.lookup name ne ≠ some false →
      List.lookup name pol = some v →
      urlsOf (serializeValJoin v) ≠ [] →
      containsExact sdChars (serializeValJoin v).data = false →
      (∃ e ∈ elems, srcOrHref e = none) →
      setNonce ne pol gen ctr name elems = .error startsWithTypeError) ∧
    processCsp ⟨fun _ => ⟨[], [Elem.mk none none none], [], [], none⟩, fun _ => "", fun _ => ""⟩
      (fun _ => "n")
      ⟨[("script-src", .arr ["'self'"]), ("style-src", .arr ["https://x.com/a"])], [], [],
        ⟨.flag true, "sha256", [], []⟩⟩
      ⟨"<html></html>", [], [], [], none, false⟩ = .error startsWithTypeError := by
  constructor
  · intro ne pol gen ctr name elems v hen hv hurls hsd hex
    unfold setNonce
    rw [if_neg (by rw [beq_iff_eq]; exact hen), hv]
    obtain ⟨u, us, hu⟩ := List.exists_cons_of_ne_nil hurls
    simp only
    rw [hsd, hu]
    exact nonceLoop_missing_attr_error u us gen elems ctr hex
  · rfl

/-- Witness for claim C10 at concrete arguments. -/
theorem claim_C10_setNonce_not_total_witness :
    setNonce [] [("style-src", .arr ["https://x.com/a"])] (fun _ => "n") 0 "style-src"
      [Elem.mk none none none] = .error startsWithTypeError :=
  claim_C10_setNonce_not_total.1 [] [("style-src", .arr ["https://x.com/a"])] (fun _ => "n") 0
    "style-src" [Elem.mk none none none] (.arr ["https://x.com/a"])
    (by decide) (by decide) (by decide) (by decide)
    ⟨Elem.mk none none none, by decide, rfl⟩

/-! ## Claim C9: policy-authoring violations are non-fatal -/

theorem nonceLoop_ok_of_attrs (urls : List String) (hasSD : Bool) (gen : Nat → String)
    (elems : List Elem) (hat : ∀ e ∈ elems, (srcOrHref e).isSome) :
    ∀ ctr, ∃ r, nonceLoop urls hasSD gen ctr elems = .ok r := by
  induction elems with
  | nil => exact fun ctr => ⟨([], [], ctr), rfl⟩
  | cons a rest ih =>
    intro ctr
    have ha : (srcOrHref a).isSome := hat a (List.mem_cons_self a rest)
    obtain ⟨s, hs⟩ := Option.isSome_iff_exists.mp ha
    have hrest : ∀ e ∈ rest, (srcOrHref e).isSome :=
      fun e he => hat e (List.mem_cons_of_mem a he)
    have ihr := ih hrest
    simp only [nonceLoop]
    by_cases hsd : hasSD = true
    · rw [if_pos hsd]
      obtain ⟨⟨t, es, c⟩, hr⟩ := ihr (ctr + 1)
      rw [hr]
      exact ⟨_, rfl⟩
    · rw [if_neg hsd, hs]
      simp only
      by_cases hany : (urls.any (fun u => jsStartsWith s u)) = true
      · rw [if_pos hany]
        obtain ⟨⟨t, es, c⟩, hr⟩ := ihr ctr
        rw [hr]
        exact ⟨_, rfl⟩
      · rw [if_neg hany]
        obtain ⟨⟨t, es, c⟩, hr⟩ := ihr (ctr + 1)
        rw [hr]
        exact ⟨_, rfl⟩

theorem setNonce_ok_of_attrs (ne : List (String × Bool)) (pol : Policy) (gen : Nat → String)
    (ctr : Nat) (name : String) (elems : List Elem)
    (hat : ∀ e ∈ elems, (srcOrHref e).isSome)
    (hpol : (List.lookup name pol).isSome) :
    ∃ r, setNonce ne pol gen ctr name elems = .ok r := by
  unfold setNonce
  by_cases hen : (List.lookup name ne == some false) = true
  · rw [if_pos hen]; exact ⟨_, rfl⟩
  · rw [if_neg hen]
    obtain ⟨v, hv⟩ := Option.isSome_iff_exists.mp hpol
    rw [hv]
    exact nonceLoop_ok_of_attrs _ _ gen elems hat ctr

/-- The merged policy always defines the default directives, in particular
`script-src` and `style-src`. -/
theorem lookup_merged_default (inst : PluginInstance) (d : HtmlData) (errs : List String)
    (k : String) (hk : (List.lookup k defaultPolicy).isSome) :
    (List.lookup k (mergeOptions inst d errs).1.policy).isSome := by
  show (List.lookup k (spreadMerge defaultPolicy
    (spreadMerge inst.cspPluginPolicy d.cspPolicy))).isSome
  rw [lookup_spreadMerge]
  cases List.lookup k (spreadMerge inst.cspPluginPolicy d.cspPolicy) with
  | some v => rfl
  | none => exact hk

/-- Claim C9: `validatePolicy` never aborts the pipeline: for every input —
including policies full of unquoted keywords — `mergeOptions` returns
normally with the violations appended after the caller's existing errors,
the merged options it produces do not depend on the error channel, and a
document is still processed and emitted with the (malformed) policy:
`processCsp` returns `.ok` with the meta tag set whenever the per-element
attributes are present. -/
theorem claim_C9_violations_nonfatal :
    (∀ inst d errs,
      (mergeOptions inst d errs).2 = errs ++ validatePolicy (mergeOptions inst d errs).1.policy) ∧
    (∀ inst d errs, (mergeOptions inst d errs).1 = (mergeOptions inst d []).1) ∧
    (∀ (ch : Cheerio) (gen : Nat → String) (inst : PluginInstance) (d : HtmlData) errs,
      validatePolicy (mergeOptions inst d errs).1.policy ≠ [] →
      isEnabled inst.opts d = true →
      (∀ e ∈ (ch.parse d.html).scriptSrcElems, (srcOrHref e).isSome) →
      (∀ e ∈ (ch.parse d.html).styleLinkElems, (srcOrHref e).isSome) →
      ∃ out : HtmlData, processCsp ch gen (mergeOptions inst d errs).1 d = .ok out) := by
  refine ⟨fun inst d errs => rfl, fun inst d errs => rfl, ?_⟩
  intro ch gen inst d errs hviol hen hs1 hs2
  unfold processCsp
  have he : isEnabled (mergeOptions inst d errs).1.opts d = true := hen
  rw [he]
  simp only [Bool.not_true, Bool.false_eq_true, if_false]
  obtain ⟨⟨t1, es1, c1⟩, h1⟩ := setNonce_ok_of_attrs (mergeOptions inst d errs).1.nonceEnabled
    (mergeOptions inst d errs).1.policy gen 0 "script-src" (ch.parse d.html).scriptSrcElems hs1
    (lookup_merged_default inst d errs "script-src" (by decide))
  rw [h1]
  simp only
  obtain ⟨⟨t2, es2, c2⟩, h2⟩ := setNonce_ok_of_attrs (mergeOptions inst d errs).1.nonceEnabled
    (mergeOptions inst d errs).1.policy gen c1 "style-src" (ch.parse d.html).styleLinkElems hs2
    (lookup_merged_default inst d errs "style-src" (by decide))
  rw [h2]
  exact ⟨_, rfl⟩

/-- Witness for claim C9: a bare `self` policy violates validation, yet the
document is still processed. -/
theorem claim_C9_violations_nonfatal_witness :
    ∃ out : HtmlData,
      processCsp ⟨fun _ => ⟨[], [], [], [], none⟩, fun doc => doc.metaContent.getD "", fun _ => ""⟩
        (fun _ => "n")
        (mergeOptions ⟨[("script-src", .arr ["self"])], ⟨.flag true, "sha256", [], []⟩⟩
          ⟨"<html></html>", [], [], [], none, false⟩ []).1
        ⟨"<html></html>", [], [], [], none, false⟩ = .ok out :=
  claim_C9_violations_nonfatal.2.2 _ _ _ _ []
    (by decide) (by decide) (by intro e he; simp at he) (by intro e he; simp at he)

/-! ## Claim C3: the nonce decision procedure -/

/-- The nonce decision procedure as the specification text states it (claim
C3): for every matched element in document order, if `'strict-dynamic'` is
NOT present and the element's reference URL starts with an
already-whitelisted URL prefix, skip the element — no nonce is issued and
no attribute is written; otherwise generate a nonce, write its bare value
as the element's `nonce` attribute, and append the quoted token
`'nonce-<value>'` to the result list. -/
def setNonceSpec (urls : List String) (hasStrictDynamic : Bool) (gen : Nat → String) :
    Nat → List Elem → List String × List Elem × Nat
  | ctr, [] => ([], [], ctr)
  | ctr, e :: rest =>
    match srcOrHref e with
    | some s =>
      if !hasStrictDynamic && urls.any (fun u => jsStartsWith s u) then
        let r := setNonceSpec urls hasStrictDynamic gen ctr rest
        (r.1, e :: r.2.1, r.2.2)
      else
        let nonce := gen ctr
        let r := setNonceSpec urls hasStrictDynamic gen (ctr + 1) rest
        (("'nonce-" ++ nonce ++ "'") :: r.1, { e with nonce := some nonce } :: r.2.1, r.2.2)
    | none =>
      let nonce := gen ctr
      let r := setNonceSpec urls hasStrictDynamic gen (ctr + 1) rest
      (("'nonce-" ++ nonce ++ "'") :: r.1, { e with nonce := some nonce } :: r.2.1, r.2.2)

theorem nonceLoop_eq_spec (urls : List String) (hasSD : Bool) (gen : Nat → String)
    (elems : List Elem) (hat : ∀ e ∈ elems, (srcOrHref e).isSome) :
    ∀ ctr, nonceLoop urls hasSD gen ctr elems = .ok (setNonceSpec urls hasSD gen ctr elems) := by
  induction elems with
  | nil => intro ctr; rfl
  | cons a rest ih =>
    intro ctr
    have ha : (srcOrHref a).isSome := hat a (List.mem_cons_self a rest)
    obtain ⟨s, hs⟩ := Option.isSome_iff_exists.mp ha
    have hrest : ∀ e ∈ rest, (srcOrHref e).isSome :=
      fun e he => hat e (List.mem_cons_of_mem a he)
    have ihr := ih hrest
    by_cases hsd : hasSD = true
    · subst hsd
      simp [nonceLoop, setNonceSpec, ihr, hs]
    · have hsd' : hasSD = false := by simpa using hsd
      subst hsd'
      by_cases hany : (urls.any (fun u => jsStartsWith s u)) = true
      · simp [nonceLoop, setNonceSpec, ihr, hs, hany]
      · have hany' : (urls.any (fun u => jsStartsWith s u)) = false := by simpa using hany
        simp [nonceLoop, setNonceSpec, ihr, hs, hany']

/-- Claim C3: when nonce generation is enabled for the directive and every
matched element carries a reference URL, `setNonce` computes exactly the
specification's decision procedure over the URL prefixes extracted from
the resolved directive value and the presence of the literal
`'strict-dynamic'`: whitelisted elements are skipped untouched, all
others receive a fresh nonce attribute and contribute a quoted
`'nonce-...'` token, in document order. -/
theorem claim_C3_nonce_decision (ne : List (String × Bool)) (pol : Policy) (gen : Nat → String)
    (ctr : Nat) (name : String) (elems : List Elem) (v : DirValue)
    (hen : List.lookup name ne ≠ some false)
    (hv : List.lookup name pol = some v)
    (hat : ∀ e ∈ elems, (srcOrHref e).isSome) :
    setNonce ne pol gen ctr name elems =
      .ok (setNonceSpec (urlsOf (serializeValJoin v))
        (containsExact sdChars (serializeValJoin v).data) gen ctr elems) := by
  unfold setNonce
  rw [if_neg (by rw [beq_iff_eq]; exact hen), hv]
  simp only
  exact nonceLoop_eq_spec _ _ gen elems hat ctr

/-- Witness for claim C3 at the specification's own example: the
allow-listed CDN script is skipped, the local script receives the nonce. -/
theorem claim_C3_nonce_decision_witness :
    setNonce [] [("script-src", .arr ["'self'", "https://cdn.example.com"])] (fun _ => "N") 0
      "script-src"
      [Elem.mk (some "https://cdn.example.com/app.js") none none,
       Elem.mk (some "/x.js") none none] =
      .ok (setNonceSpec (urlsOf (serializeValJoin (.arr ["'self'", "https://cdn.example.com"])))
        (containsExact sdChars (serializeValJoin (.arr ["'self'", "https://cdn.example.com"])).data)
        (fun _ => "N") 0
        [Elem.mk (some "https://cdn.example.com/app.js") none none,
         Elem.mk (some "/x.js") none none]) :=
  claim_C3_nonce_decision [] [("script-src", .arr ["'self'", "https://cdn.example.com"])]
    (fun _ => "N") 0 "script-src"
    [Elem.mk (some "https://cdn.example.com/app.js") none none,
     Elem.mk (some "/x.js") none none]
    (.arr ["'self'", "https://cdn.example.com"])
    (by decide) (by decide) (by decide)

/-! ## Infrastructure for claims C2 and C7: the strict-dynamic scan -/

theorem sdChars_length : sdChars.length = 16 := by decide

theorem tryMatchSD_pos (l : List Char) (n : Nat) (h : tryMatchSD l = some n) : 1 ≤ n := by
  cases l with
  | nil => simp [tryMatchSD] at h
  | cons c cs =>
    simp only [tryMatchSD] at h
    have h16 := sdChars_length
    by_cases hc : isJsWs c = true
    · rw [if_pos hc] at h
      by_cases h1 : litCI sdChars cs = true
      · rw [if_pos h1] at h
        simp only [Option.some.injEq] at h
        omega
      · rw [if_neg h1] at h
        by_cases h2 : litCI sdChars (c :: cs) = true
        · rw [if_pos h2] at h
          simp only [Option.some.injEq] at h
          omega
        · rw [if_neg h2] at h; simp at h
    · rw [if_neg hc] at h
      by_cases h2 : litCI sdChars (c :: cs) = true
      · rw [if_pos h2] at h
        simp only [Option.some.injEq] at h
        omega
      · rw [if_neg h2] at h; simp at h

theorem replaceSDAux_succ_cons (f : Nat) (c : Char) (cs : List Char) :
    replaceSDAux (f + 1) (c :: cs) =
      match tryMatchSD (c :: cs) with
      | some n => ' ' :: replaceSDAux f ((c :: cs).drop n)
      | none => c :: replaceSDAux f cs := rfl

theorem replaceSDAux_mono (f : Nat) : ∀ (l : List Char), l.length ≤ f →
    replaceSDAux f l = replaceSDC l := by
  induction f using Nat.strong_induction_on with
  | _ f ih =>
    intro l hl
    cases l with
    | nil => cases f <;> rfl
    | cons c cs =>
      cases f with
      | zero => simp at hl
      | succ f' =>
        have hcs : cs.length ≤ f' := by simpa using hl
        cases htm : tryMatchSD (c :: cs) with
        | some n =>
          have hn := tryMatchSD_pos _ _ htm
          have hd1 : ((c :: cs).drop n).length ≤ f' := by
            rw [List.length_drop]; simp only [List.length_cons]; omega
          have hd2 : ((c :: cs).drop n).length ≤ cs.length := by
            rw [List.length_drop]; simp only [List.length_cons]; omega
          have e1 : replaceSDAux (f' + 1) (c :: cs) = ' ' :: replaceSDAux f' ((c :: cs).drop n) := by
            rw [replaceSDAux_succ_cons, htm]
          have e2 : replaceSDC (c :: cs) = ' ' :: replaceSDAux cs.length ((c :: cs).drop n) := by
            show replaceSDAux ((c :: cs).length) (c :: cs) = _
            rw [List.length_cons, replaceSDAux_succ_cons, htm]
          rw [e1, e2, ih f' (Nat.lt_succ_self f') _ hd1,
            ih cs.length (Nat.lt_succ_of_le hcs) _ hd2]
        | none =>
          have e1 : replaceSDAux (f' + 1) (c :: cs) = c :: replaceSDAux f' cs := by
            rw [replaceSDAux_succ_cons, htm]
          have e2 : replaceSDC (c :: cs) = c :: replaceSDAux cs.length cs := by
            show replaceSDAux ((c :: cs).length) (c :: cs) = _
            rw [List.length_cons, replaceSDAux_succ_cons, htm]
          rw [e1, e2, ih f' (Nat.lt_succ_self f') _ hcs]
          rfl

theorem replaceSDC_nil : replaceSDC [] = [] := rfl

theorem replaceSDC_cons_none (c : Char) (cs : List Char) (h : tryMatchSD (c :: cs) = none) :
    replaceSDC (c :: cs) = c :: replaceSDC cs := by
  show replaceSDAux ((c :: cs).length) (c :: cs) = _
  rw [List.length_cons, replaceSDAux_succ_cons, h]
  rfl

theorem replaceSDC_match (l : List Char) (n : Nat) (h : tryMatchSD l = some n) :
    replaceSDC l = ' ' :: replaceSDC (l.drop n) := by
  cases l with
  | nil => simp [tryMatchSD] at h
  | cons c cs =>
    have hn := tryMatchSD_pos _ _ h
    show replaceSDAux ((c :: cs).length) (c :: cs) = _
    rw [List.length_cons, replaceSDAux_succ_cons, h]
    exact congrArg (List.cons ' ') (replaceSDAux_mono cs.length ((c :: cs).drop n)
      (by rw [List.length_drop]; simp only [List.length_cons]; omega))

theorem length_dropWhile_le' (q : Char → Bool) (l : List Char) :
    (l.dropWhile q).length ≤ l.length := by
  induction l with
  | nil => simp [List.dropWhile]
  | cons c cs ih =>
    by_cases hc : q c = true
    · rw [List.dropWhile_cons_of_pos hc]; exact Nat.le_succ_of_le ih
    · rw [List.dropWhile_cons_of_neg (by simpa using hc)]

theorem tokenizeAux_mono (f : Nat) : ∀ (l : List Char), l.length ≤ f →
    tokenizeAux f l = tokenizeC l := by
  induction f using Nat.strong_induction_on with
  | _ f ih =>
    intro l hl
    cases l with
    | nil => cases f <;> rfl
    | cons c cs =>
      cases f with
      | zero => simp at hl
      | succ f' =>
        have hcs : cs.length ≤ f' := by simpa using hl
        unfold tokenizeC
        by_cases hc : isJsWs c = true
        · simp only [tokenizeAux, hc, if_true, List.length_cons]
          rw [ih f' (Nat.lt_succ_self f') _ hcs]
          rfl
        · simp only [tokenizeAux, hc, Bool.false_eq_true, if_false, List.length_cons]
          have hd := length_dropWhile_le' (fun d => !isJsWs d) cs
          rw [ih f' (Nat.lt_succ_self f') _ (Nat.le_trans hd hcs),
            ih cs.length (Nat.lt_succ_of_le hcs) _ hd]

theorem tokenizeC_nil : tokenizeC [] = [] := rfl

theorem tokenizeC_ws_cons (c : Char) (l : List Char) (hc : isJsWs c = true) :
    tokenizeC (c :: l) = tokenizeC l := by
  unfold tokenizeC
  simp only [List.length_cons, tokenizeAux, hc, if_true]

theorem tokenizeC_tok_cons (c : Char) (l : List Char) (hc : isJsWs c = false) :
    tokenizeC (c :: l) =
      (c :: l.takeWhile (fun d => !isJsWs d)) :: tokenizeC (l.dropWhile (fun d => !isJsWs d)) := by
  unfold tokenizeC
  simp only [List.length_cons, tokenizeAux, hc, Bool.false_eq_true, if_false]
  rw [tokenizeAux_mono l.length _ (length_dropWhile_le' _ l)]
  rfl

/-! Character-level facts about the strict-dynamic literal and whitespace. -/

theorem toLowerA_of_ws (c : Char) (h : isJsWs c = true) : toLowerA c = c := by
  unfold toLowerA
  rw [if_neg]
  rintro ⟨h1, h2⟩
  simp only [isJsWs, Bool.or_eq_true, beq_iff_eq, Bool.and_eq_true, decide_eq_true_eq] at h
  omega

theorem ws_no_match_sd (c : Char) (hc : isJsWs c = true) (p : Char) (hp : p ∈ sdChars) :
    (toLowerA c == toLowerA p) = false := by
  have hp2 : isJsWs p = false ∧ toLowerA p = p := by
    fin_cases hp <;> exact ⟨by decide, by decide⟩
  rw [toLowerA_of_ws c hc, hp2.2]
  refine beq_false_of_ne fun h => ?_
  rw [h] at hc
  rw [hp2.1] at hc
  cases hc

theorem litCI_self_append (pat r : List Char) (hfix : ∀ p ∈ pat, toLowerA p = p) :
    litCI pat (pat ++ r) = true := by
  induction pat with
  | nil => rfl
  | cons p ps ih =>
    simp only [List.cons_append, litCI, Bool.and_eq_true]
    refine ⟨by rw [hfix p (List.mem_cons_self _ _)]; exact beq_self_eq_true _, ?_⟩
    exact ih (fun q hq => hfix q (List.mem_cons_of_mem _ hq))

theorem litCI_split (ps : List Char) : ∀ (t r : List Char), litCI ps (t ++ r) = true →
    litCI ps t = true ∨
      ∃ p ∈ ps, ∃ c, r.head? = some c ∧ (toLowerA c == toLowerA p) = true := by
  induction ps with
  | nil => intro t r _; exact Or.inl rfl
  | cons p ps ih =>
    intro t r h
    cases t with
    | nil =>
      simp only [List.nil_append] at h
      cases r with
      | nil => simp [litCI] at h
      | cons c rs =>
        simp only [litCI, Bool.and_eq_true] at h
        exact Or.inr ⟨p, List.mem_cons_self _ _, c, rfl, h.1⟩
    | cons a t' =>
      simp only [List.cons_append, litCI, Bool.and_eq_true] at h
      rcases ih t' r h.2 with h1 | ⟨q, hq, c, hc, hm⟩
      · exact Or.inl (by simp [litCI, h.1, h1])
      · exact Or.inr ⟨q, List.mem_cons_of_mem _ hq, c, hc, hm⟩

theorem containsCI_of_litCI (l : List Char) (h : litCI sdChars l = true) :
    containsCI sdChars l = true := by
  cases l with
  | nil => exact absurd h (by decide)
  | cons c cs => simp [containsCI, h]

/-- The continuation after a token either is empty or begins with whitespace. -/
def HeadWsNil (r : List Char) : Prop := ∀ c, r.head? = some c → isJsWs c = true

theorem litCI_clean_append (t r : List Char)
    (hws : ∀ c ∈ t, isJsWs c = false)
    (hnc : containsCI sdChars t = false)
    (hr : HeadWsNil r) :
    litCI sdChars (t ++ r) = false := by
  by_contra hcon
  rw [Bool.not_eq_false] at hcon
  rcases litCI_split sdChars t r hcon with h1 | ⟨p, hp, c, hc, hm⟩
  · rw [containsCI_of_litCI t h1] at hnc
    cases hnc
  · rw [ws_no_match_sd c (hr c hc) p hp] at hm
    cases hm

theorem litCI_ws_head (c : Char) (z : List Char) (hc : isJsWs c = true) :
    litCI sdChars (c :: z) = false := by
  rw [show sdChars = quoteChar :: "strict-dynamic'".data from by decide]
  simp only [litCI]
  rw [ws_no_match_sd c hc quoteChar (by decide)]
  rfl

theorem tryMatchSD_clean (t r : List Char) (hne : t ≠ [])
    (hws : ∀ c ∈ t, isJsWs c = false)
    (hnc : containsCI sdChars t = false)
    (hr : HeadWsNil r) :
    tryMatchSD (t ++ r) = none := by
  cases t with
  | nil => exact absurd rfl hne
  | cons c t' =>
    have hcw : isJsWs c = false := hws c (List.mem_cons_self _ _)
    have hlit : litCI sdChars (c :: (t' ++ r)) = false := by
      rw [← List.cons_append]
      exact litCI_clean_append (c :: t') r hws hnc hr
    rw [List.cons_append]
    simp [tryMatchSD, hcw, hlit]

theorem tryMatchSD_of_lit (c : Char) (cs : List Char) (hcw : isJsWs c = false)
    (hlit : litCI sdChars (c :: cs) = true) :
    tryMatchSD (c :: cs) = some (sdChars.length + wsOptLen ((c :: cs).drop sdChars.length)) := by
  simp [tryMatchSD, hcw, hlit]

theorem tryMatchSD_sd (r : List Char) :
    tryMatchSD (sdChars ++ r) = some (sdChars.length + wsOptLen r) := by
  have hsplit : sdChars ++ r = quoteChar :: ("strict-dynamic'".data ++ r) := by
    rw [show sdChars = quoteChar :: "strict-dynamic'".data from by decide]
    rfl
  have hlit : litCI sdChars (quoteChar :: ("strict-dynamic'".data ++ r)) = true := by
    rw [← hsplit]
    exact litCI_self_append sdChars r (by decide)
  rw [hsplit, tryMatchSD_of_lit _ _ (by decide) hlit, ← hsplit, List.drop_left]

theorem tryMatchSD_ws_sd (c : Char) (r : List Char) (hc : isJsWs c = true) :
    tryMatchSD (c :: (sdChars ++ r)) = some (1 + sdChars.length + wsOptLen r) := by
  have hlit : litCI sdChars (sdChars ++ r) = true := litCI_self_append sdChars r (by decide)
  simp [tryMatchSD, hc, hlit, List.drop_left]

theorem tryMatchSD_ws_clean (c : Char) (t r : List Char) (hc : isJsWs c = true) (hne : t ≠ [])
    (hws : ∀ x ∈ t, isJsWs x = false)
    (hnc : containsCI sdChars t = false)
    (hr : HeadWsNil r) :
    tryMatchSD (c :: (t ++ r)) = none := by
  have h1 : litCI sdChars (t ++ r) = false := litCI_clean_append t r hws hnc hr
  have h2 : litCI sdChars (c :: (t ++ r)) = false := litCI_ws_head c _ hc
  simp [tryMatchSD, hc, h1, h2]

theorem replaceSDC_skip (t r : List Char)
    (hws : ∀ c ∈ t, isJsWs c = false)
    (hnc : containsCI sdChars t = false)
    (hr : HeadWsNil r) :
    replaceSDC (t ++ r) = t ++ replaceSDC r := by
  induction t with
  | nil => rfl
  | cons c t' ih =>
    have htm : tryMatchSD ((c :: t') ++ r) = none :=
      tryMatchSD_clean (c :: t') r (by simp) hws hnc hr
    have hnc2 : containsCI sdChars t' = false := by
      simp only [containsCI, Bool.or_eq_false_iff] at hnc
      exact hnc.2
    rw [List.cons_append] at htm
    rw [List.cons_append, replaceSDC_cons_none c _ htm,
      ih (fun x hx => hws x (List.mem_cons_of_mem _ hx)) hnc2]
    rfl

theorem replaceSDC_ws_head (x : List Char) : ∃ y, replaceSDC (' ' :: x) = ' ' :: y := by
  cases htm : tryMatchSD (' ' :: x) with
  | some n => exact ⟨_, replaceSDC_match _ _ htm⟩
  | none => exact ⟨_, replaceSDC_cons_none _ _ htm⟩

/-! Tokeniser lemmas: whitespace splitting distributes over the pieces the
strict-dynamic scan produces. -/

theorem takeWhile_append_stop (q : Char → Bool) (cs : List Char) (w : Char) (r : List Char)
    (hw : q w = false) : (cs ++ w :: r).takeWhile q = cs.takeWhile q := by
  induction cs with
  | nil =>
    rw [List.nil_append, List.takeWhile_cons_of_neg (by simp [hw]), List.takeWhile_nil]
  | cons a cs ih =>
    by_cases ha : q a = true
    · rw [List.cons_append, List.takeWhile_cons_of_pos ha, List.takeWhile_cons_of_pos ha, ih]
    · rw [List.cons_append, List.takeWhile_cons_of_neg (by simpa using ha),
        List.takeWhile_cons_of_neg (by simpa using ha)]

theorem dropWhile_append_stop (q : Char → Bool) (cs : List Char) (w : Char) (r : List Char)
    (hw : q w = false) : (cs ++ w :: r).dropWhile q = cs.dropWhile q ++ w :: r := by
  induction cs with
  | nil =>
    rw [List.nil_append, List.dropWhile_cons_of_neg (by simp [hw]), List.dropWhile_nil,
      List.nil_append]
  | cons a cs ih =>
    by_cases ha : q a = true
    · rw [List.cons_append, List.dropWhile_cons_of_pos ha, List.dropWhile_cons_of_pos ha, ih]
    · rw [List.cons_append, List.dropWhile_cons_of_neg (by simpa using ha),
        List.dropWhile_cons_of_neg (by simpa using ha), List.cons_append]

theorem tokenizeC_append_wsc (w0 : Char) (hw : isJsWs w0 = true) (l r : List Char) :
    tokenizeC (l ++ w0 :: r) = tokenizeC l ++ tokenizeC r := by
  cases l with
  | nil =>
    rw [List.nil_append, tokenizeC_ws_cons w0 r hw, tokenizeC_nil, List.nil_append]
  | cons c cs =>
    by_cases hc : isJsWs c = true
    · rw [List.cons_append, tokenizeC_ws_cons c _ hc, tokenizeC_ws_cons c cs hc]
      exact tokenizeC_append_wsc w0 hw cs r
    · have hc' : isJsWs c = false := by simpa using hc
      rw [List.cons_append, tokenizeC_tok_cons c _ hc', tokenizeC_tok_cons c cs hc']
      rw [takeWhile_append_stop _ cs w0 r (by simp [hw]),
        dropWhile_append_stop _ cs w0 r (by simp [hw])]
      rw [tokenizeC_append_wsc w0 hw (cs.dropWhile (fun d => !isJsWs d)) r]
      rw [List.cons_append]
termination_by l.length
decreasing_by
  · simp only [List.length_cons]; omega
  · simp only [List.length_cons]
    exact Nat.lt_succ_of_le (length_dropWhile_le' _ _)

theorem tokenizeC_allws (w : List Char) (h : ∀ c ∈ w, isJsWs c = true) : tokenizeC w = [] := by
  induction w with
  | nil => rfl
  | cons c cs ih =>
    rw [tokenizeC_ws_cons c cs (h c (List.mem_cons_self _ _))]
    exact ih (fun x hx => h x (List.mem_cons_of_mem _ hx))

theorem tokenizeC_append_allws (l w : List Char) (h : ∀ c ∈ w, isJsWs c = true) :
    tokenizeC (l ++ w) = tokenizeC l := by
  cases w with
  | nil => rw [List.append_nil]
  | cons c cs =>
    rw [tokenizeC_append_wsc c (h c (List.mem_cons_self _ _)) l cs,
      tokenizeC_allws cs (fun x hx => h x (List.mem_cons_of_mem _ hx)), List.append_nil]

theorem mem_takeWhile_sat (q : Char → Bool) (l : List Char) :
    ∀ x ∈ l.takeWhile q, q x = true := by
  induction l with
  | nil => intro x hx; simp [List.takeWhile_nil] at hx
  | cons c cs ih =>
    intro x hx
    by_cases hc : q c = true
    · rw [List.takeWhile_cons_of_pos hc] at hx
      rcases List.mem_cons.mp hx with rfl | hx2
      · exact hc
      · exact ih x hx2
    · rw [List.takeWhile_cons_of_neg (by simpa using hc)] at hx
      simp at hx

theorem tokenizeC_dropWhile_ws (l : List Char) :
    tokenizeC (l.dropWhile isJsWs) = tokenizeC l := by
  induction l with
  | nil => rfl
  | cons c cs ih =>
    by_cases hc : isJsWs c = true
    · rw [List.dropWhile_cons_of_pos hc, ih, tokenizeC_ws_cons c cs hc]
    · rw [List.dropWhile_cons_of_neg (by simpa using hc)]

theorem tokenizeC_dropTrailing (l : List Char) :
    tokenizeC (dropTrailingWs l) = tokenizeC l := by
  have hdecomp : l = dropTrailingWs l ++ (l.reverse.takeWhile isJsWs).reverse := by
    unfold dropTrailingWs
    calc l = l.reverse.reverse := (List.reverse_reverse l).symm
    _ = (l.reverse.takeWhile isJsWs ++ l.reverse.dropWhile isJsWs).reverse := by
        rw [List.takeWhile_append_dropWhile]
    _ = (l.reverse.dropWhile isJsWs).reverse ++ (l.reverse.takeWhile isJsWs).reverse := by
        rw [List.reverse_append]
  conv_rhs => rw [hdecomp]
  rw [tokenizeC_append_allws _ _ (fun x hx =>
    mem_takeWhile_sat isJsWs l.reverse x (List.mem_reverse.mp hx))]

theorem tokenizeC_trim (l : List Char) : tokenizeC (jsTrimC l) = tokenizeC l := by
  unfold jsTrimC
  rw [tokenizeC_dropTrailing, tokenizeC_dropWhile_ws]

theorem takedrop_all_append (q : Char → Bool) (t r : List Char)
    (hall : ∀ c ∈ t, q c = true) (hr : ∀ c, r.head? = some c → q c = false) :
    (t ++ r).takeWhile q = t ∧ (t ++ r).dropWhile q = r := by
  induction t with
  | nil =>
    cases r with
    | nil => exact ⟨rfl, rfl⟩
    | cons c rs =>
      have hc := hr c rfl
      exact ⟨by rw [List.nil_append, List.takeWhile_cons_of_neg (by simp [hc])],
        by rw [List.nil_append, List.dropWhile_cons_of_neg (by simp [hc])]⟩
  | cons a t' ih =>
    have ha : q a = true := hall a (List.mem_cons_self _ _)
    obtain ⟨h1, h2⟩ := ih (fun c hc => hall c (List.mem_cons_of_mem _ hc))
    exact ⟨by rw [List.cons_append, List.takeWhile_cons_of_pos ha, h1],
      by rw [List.cons_append, List.dropWhile_cons_of_pos ha, h2]⟩

theorem tokenizeC_token_append (t r : List Char) (hne : t ≠ [])
    (hws : ∀ c ∈ t, isJsWs c = false) (hr : HeadWsNil r) :
    tokenizeC (t ++ r) = t :: tokenizeC r := by
  cases t with
  | nil => exact absurd rfl hne
  | cons c t' =>
    have hc : isJsWs c = false := hws c (List.mem_cons_self _ _)
    rw [List.cons_append, tokenizeC_tok_cons c _ hc]
    obtain ⟨h1, h2⟩ := takedrop_all_append (fun d => !isJsWs d) t' r
      (fun x hx => by simp [hws x (List.mem_cons_of_mem _ hx)])
      (fun x hx => by simp [hr x hx])
    rw [h1, h2]

/-! The core token-level characterisation of the strict-dynamic scan. -/

/-- A well-formed serialised token: nonempty, whitespace-free, and — unless
it is the `'strict-dynamic'` token itself — free of any case-insensitive
occurrence of the literal. -/
def GoodTok (t : List Char) : Prop :=
  t ≠ [] ∧ (∀ c ∈ t, isJsWs c = false) ∧ (t ≠ sdChars → containsCI sdChars t = false)

/-- Character lists of the single-space join of a token list. -/
def joinToks : List (List Char) → List Char
  | [] => []
  | [t] => t
  | t :: u :: ts => t ++ ' ' :: joinToks (u :: ts)

theorem headWsNil_nil : HeadWsNil [] := fun c hc => by simp at hc

theorem headWsNil_sep (z : List Char) : HeadWsNil (' ' :: z) := by
  intro c hc
  simp only [List.head?_cons, Option.some.injEq] at hc
  exact hc ▸ (by decide : isJsWs ' ' = true)

theorem replaceSD_core (ts : List (List Char)) (h : ∀ t ∈ ts, GoodTok t) :
    tokenizeC (replaceSDC (joinToks ts)) = ts.filter (fun t => t ≠ sdChars) ∧
    tokenizeC (replaceSDC (' ' :: joinToks ts)) = ts.filter (fun t => t ≠ sdChars) := by
  induction ts with
  | nil => exact ⟨by decide, by decide⟩
  | cons t rest ih =>
    have ht := h t (List.mem_cons_self _ _)
    obtain ⟨ihG, ihS⟩ := ih (fun x hx => h x (List.mem_cons_of_mem _ hx))
    have hG : tokenizeC (replaceSDC (joinToks (t :: rest))) =
        (t :: rest).filter (fun x => x ≠ sdChars) := by
      by_cases htsd : t = sdChars
      · subst htsd
        cases rest with
        | nil => decide
        | cons u rs =>
          have hj : joinToks (sdChars :: u :: rs) = sdChars ++ ' ' :: joinToks (u :: rs) := rfl
          rw [hj, replaceSDC_match _ _ (tryMatchSD_sd (' ' :: joinToks (u :: rs)))]
          have hdrop : (sdChars ++ ' ' :: joinToks (u :: rs)).drop
              (sdChars.length + wsOptLen (' ' :: joinToks (u :: rs))) = joinToks (u :: rs) := by
            rw [show wsOptLen (' ' :: joinToks (u :: rs)) = 1 from rfl]
            rw [show sdChars ++ ' ' :: joinToks (u :: rs) =
              (sdChars ++ [' ']) ++ joinToks (u :: rs) from by simp]
            rw [show sdChars.length + 1 = (sdChars ++ [' ']).length from by
              simp [List.length_append]]
            exact List.drop_left _ _
          rw [hdrop, tokenizeC_ws_cons ' ' _ (by decide), ihG]
          exact (List.filter_cons_of_neg (by simp)).symm
      · have hclean : containsCI sdChars t = false := ht.2.2 htsd
        cases rest with
        | nil =>
          have hskip := replaceSDC_skip t [] ht.2.1 hclean headWsNil_nil
          rw [replaceSDC_nil, List.append_nil] at hskip
          rw [show joinToks [t] = t from rfl, hskip]
          have htok : tokenizeC t = [t] := by
            conv_lhs => rw [← List.append_nil t]
            rw [tokenizeC_token_append t [] ht.1 ht.2.1 headWsNil_nil]
            rfl
          rw [htok, List.filter_cons_of_pos (by simp [htsd])]
          rfl
        | cons u rs =>
          have hj : joinToks (t :: u :: rs) = t ++ ' ' :: joinToks (u :: rs) := rfl
          rw [hj, replaceSDC_skip t _ ht.2.1 hclean (headWsNil_sep _)]
          obtain ⟨y, hy⟩ := replaceSDC_ws_head (joinToks (u :: rs))
          rw [hy, tokenizeC_token_append t (' ' :: y) ht.1 ht.2.1 (headWsNil_sep _)]
          have hS := ihS
          rw [hy] at hS
          rw [hS]
          exact (List.filter_cons_of_pos (by simp [htsd])).symm
    refine ⟨hG, ?_⟩
    by_cases htsd : t = sdChars
    · subst htsd
      cases rest with
      | nil => decide
      | cons u rs =>
        have hj : ' ' :: joinToks (sdChars :: u :: rs) =
            ' ' :: (sdChars ++ ' ' :: joinToks (u :: rs)) := rfl
        rw [hj, replaceSDC_match _ _ (tryMatchSD_ws_sd ' ' _ (by decide))]
        have hdrop : (' ' :: (sdChars ++ ' ' :: joinToks (u :: rs))).drop
            (1 + sdChars.length + wsOptLen (' ' :: joinToks (u :: rs))) = joinToks (u :: rs) := by
          rw [show wsOptLen (' ' :: joinToks (u :: rs)) = 1 from rfl]
          rw [show ' ' :: (sdChars ++ ' ' :: joinToks (u :: rs)) =
            ((' ' :: sdChars) ++ [' ']) ++ joinToks (u :: rs) from by simp]
          rw [show 1 + sdChars.length + 1 = ((' ' :: sdChars) ++ [' ']).length from by
            simp [List.length_append]; omega]
          exact List.drop_left _ _
        rw [hdrop, tokenizeC_ws_cons ' ' _ (by decide), ihG]
        exact (List.filter_cons_of_neg (by simp)).symm
    · have hclean : containsCI sdChars t = false := ht.2.2 htsd
      obtain ⟨tail, htail, hwstail⟩ :
          ∃ tail, joinToks (t :: rest) = t ++ tail ∧ HeadWsNil tail := by
        cases rest with
        | nil => exact ⟨[], by simp [joinToks], headWsNil_nil⟩
        | cons u rs => exact ⟨' ' :: joinToks (u :: rs), rfl, headWsNil_sep _⟩
      have htm : tryMatchSD (' ' :: joinToks (t :: rest)) = none := by
        rw [htail]
        exact tryMatchSD_ws_clean ' ' t tail (by decide) ht.1 ht.2.1 hclean hwstail
      rw [replaceSDC_cons_none _ _ htm, tokenizeC_ws_cons _ _ (by decide)]
      exact hG

/-! Bridges between strings and character lists. -/

theorem data_injective {s t : String} (h : s.data = t.data) : s = t :=
  congrArg String.mk h

theorem ne_empty_iff_data (s : String) : s ≠ "" ↔ s.data ≠ [] := by
  constructor
  · intro h hd
    exact h (data_injective (by rw [hd]))
  · intro h hs
    exact h (by rw [hs])

theorem joinStr_sp_data (ts : List String) :
    (joinStr " " ts).data = joinToks (ts.map String.data) := by
  match ts with
  | [] => rfl
  | [t] => rfl
  | t :: u :: ts =>
    show (t ++ " " ++ joinStr " " (u :: ts)).data =
      t.data ++ ' ' :: joinToks ((u :: ts).map String.data)
    rw [String.data_append, String.data_append, joinStr_sp_data (u :: ts)]
    rw [show (" " : String).data = [' '] from rfl, List.append_assoc]
    rfl

theorem isPrefixList_self_append (pat r : List Char) : isPrefixList pat (pat ++ r) = true := by
  induction pat with
  | nil => rfl
  | cons p ps ih => simp [isPrefixList, ih]

theorem containsExact_of_isPrefixList (pat l : List Char) (h : isPrefixList pat l = true) :
    containsExact pat l = true := by
  cases l with
  | nil => exact h
  | cons c cs => simp [containsExact, h]

theorem containsExact_of_split (pat a b : List Char) :
    containsExact pat (a ++ (pat ++ b)) = true := by
  induction a with
  | nil => exact containsExact_of_isPrefixList pat _ (isPrefixList_self_append pat b)
  | cons x a ih =>
    show containsExact pat (x :: (a ++ (pat ++ b))) = true
    simp [containsExact, ih]

theorem joinToks_mem_split (t : List Char) (ts : List (List Char)) (h : t ∈ ts) :
    ∃ a b, joinToks ts = a ++ (t ++ b) := by
  induction ts with
  | nil => simp at h
  | cons u rest ih =>
    rcases List.mem_cons.mp h with rfl | h2
    · cases rest with
      | nil => exact ⟨[], [], by simp [joinToks]⟩
      | cons v rs => exact ⟨[], ' ' :: joinToks (v :: rs), rfl⟩
    · obtain ⟨a, b, hab⟩ := ih h2
      cases rest with
      | nil => simp at h2
      | cons v rs =>
        refine ⟨u ++ ' ' :: a, b, ?_⟩
        show u ++ ' ' :: joinToks (v :: rs) = (u ++ ' ' :: a) ++ (t ++ b)
        rw [hab]
        simp [List.append_assoc]

theorem includes_sd_of_mem (ts : List String) (h : sdStr ∈ ts) :
    containsExact sdChars (joinStr " " ts).data = true := by
  rw [joinStr_sp_data]
  obtain ⟨a, b, hab⟩ := joinToks_mem_split sdStr.data (ts.map String.data)
    (List.mem_map_of_mem _ h)
  rw [hab]
  exact containsExact_of_split _ _ _

theorem mem_uniqAux (x : String) (xs : List String) :
    ∀ seen, x ∈ uniqAux seen xs ↔ (x ∈ xs ∧ x ∉ seen) := by
  induction xs with
  | nil => intro seen; simp [uniqAux]
  | cons y ys ih =>
    intro seen
    by_cases hy : y ∈ seen
    · rw [show uniqAux seen (y :: ys) = uniqAux seen ys from by simp [uniqAux, hy], ih seen]
      constructor
      · rintro ⟨h1, h2⟩; exact ⟨List.mem_cons_of_mem _ h1, h2⟩
      · rintro ⟨h1, h2⟩
        rcases List.mem_cons.mp h1 with rfl | h3
        · exact absurd hy h2
        · exact ⟨h3, h2⟩
    · rw [show uniqAux seen (y :: ys) = y :: uniqAux (y :: seen) ys from by simp [uniqAux, hy]]
      constructor
      · intro hx
        rcases List.mem_cons.mp hx with rfl | h3
        · exact ⟨List.mem_cons_self _ _, hy⟩
        · obtain ⟨h4, h5⟩ := (ih (y :: seen)).mp h3
          exact ⟨List.mem_cons_of_mem _ h4, fun hc => h5 (List.mem_cons_of_mem _ hc)⟩
      · rintro ⟨h1, h2⟩
        rcases List.mem_cons.mp h1 with rfl | h3
        · exact List.mem_cons_self _ _
        · by_cases hxy : x = y
          · subst hxy; exact List.mem_cons_self _ _
          · refine List.mem_cons_of_mem _ ((ih (y :: seen)).mpr ⟨h3, ?_⟩)
            intro hc
            rcases List.mem_cons.mp hc with h5 | h5
            · exact hxy h5
            · exact h2 h5

theorem mem_uniq (x : String) (xs : List String) : x ∈ uniq xs ↔ x ∈ xs := by
  unfold uniq
  rw [mem_uniqAux x xs []]
  simp

theorem filter_map_data (ts : List String) :
    (ts.map String.data).filter (fun x => x ≠ sdChars) =
      (ts.filter (fun t => t ≠ sdStr)).map String.data := by
  induction ts with
  | nil => rfl
  | cons t rest ih =>
    by_cases ht : t = sdStr
    · subst ht
      rw [List.map_cons, List.filter_cons_of_neg (by simp [sdChars]), List.filter_cons_of_neg (by simp), ih]
    · rw [List.map_cons,
        List.filter_cons_of_pos (by simp only [decide_eq_true_eq]; exact fun h => ht (data_injective h)),
        List.filter_cons_of_pos (by simp [ht]), List.map_cons, ih]

theorem map_mk_data (ts : List String) : (ts.map String.data).map String.mk = ts := by
  induction ts with
  | nil => rfl
  | cons t rest ih =>
    rw [List.map_cons, List.map_cons, ih]

/-- Token-level characterisation of a `buildSegment` whose serialised value
contains the `'strict-dynamic'` token: the key comes first, the other tokens
follow in order, and `'strict-dynamic'` is relocated to the end. -/
theorem segment_tokens_core (key : String) (v : DirValue) (ts : List String)
    (hv : serializeVal v = joinStr " " ts)
    (hk1 : key ≠ "") (hk2 : ∀ c ∈ key.data, isJsWs c = false)
    (hts : ∀ t ∈ ts, t ≠ "" ∧ (∀ c ∈ t.data, isJsWs c = false) ∧
      (t ≠ sdStr → containsCI sdChars t.data = false))
    (hsd : sdStr ∈ ts) :
    wsTokens (buildSegment (key, v)) =
      key :: (ts.filter (fun t => t ≠ sdStr) ++ [sdStr]) := by
  have hinc : containsExact sdChars (serializeVal v).data = true := by
    rw [hv]; exact includes_sd_of_mem ts hsd
  have hseg : buildSegment (key, v) = if containsExact sdChars (serializeVal v).data
      then key ++ " " ++ (String.mk (jsTrimC (replaceSDC (serializeVal v).data)) ++ " " ++ sdStr)
      else key ++ " " ++ serializeVal v := rfl
  rw [hseg, if_pos hinc]
  have hdata : (key ++ " " ++ (String.mk (jsTrimC (replaceSDC (serializeVal v).data)) ++ " " ++ sdStr)).data
      = key.data ++ ' ' :: (jsTrimC (replaceSDC (serializeVal v).data) ++ ' ' :: sdChars) := by
    simp only [String.data_append]
    show (key.data ++ [' ']) ++ ((jsTrimC (replaceSDC (serializeVal v).data) ++ [' ']) ++ sdChars) = _
    simp [List.append_assoc]
  unfold wsTokens
  rw [hdata]
  rw [tokenizeC_token_append key.data _ ((ne_empty_iff_data key).mp hk1) hk2 (headWsNil_sep _)]
  rw [tokenizeC_ws_cons ' ' _ (by decide)]
  rw [tokenizeC_append_wsc ' ' (by decide) (jsTrimC (replaceSDC (serializeVal v).data)) sdChars]
  rw [tokenizeC_trim]
  rw [hv, joinStr_sp_data]
  have hgood : ∀ x ∈ ts.map String.data, GoodTok x := by
    intro x hx
    obtain ⟨t, ht, rfl⟩ := List.mem_map.mp hx
    obtain ⟨h1, h2, h3⟩ := hts t ht
    exact ⟨(ne_empty_iff_data t).mp h1, h2,
      fun hne => h3 (fun he => hne (by rw [he]; rfl))⟩
  rw [(replaceSD_core (ts.map String.data) hgood).1]
  rw [show tokenizeC sdChars = [sdChars] from rfl]
  rw [filter_map_data]
  rw [List.map_cons, List.map_append, map_mk_data]
  rfl

/-- C2: if the serialised directive value contains the `'strict-dynamic'`
token, `buildSegment` relocates it to the end: the whitespace tokens of the
segment are the key, then the remaining tokens in first-occurrence order,
then `'strict-dynamic'` — provided no other token contains `'strict-dynamic'`
as a case-insensitive substring (conjunct 1: array values after
`compact`/`uniq`; conjunct 2: string values whose space-split obeys the same
proviso); conjunct 3: `buildPolicy` is the `"; "`-join of these segments, so
the property holds of the directive's segment inside any policy. -/
theorem claim_C2_strict_dynamic_last :
    (∀ (key : String) (toks : List String),
      key ≠ "" → (∀ c ∈ key.data, isJsWs c = false) →
      (∀ t ∈ toks, (∀ c ∈ t.data, isJsWs c = false) ∧
        (t ≠ sdStr → containsCI sdChars t.data = false)) →
      sdStr ∈ toks →
      wsTokens (buildSegment (key, DirValue.arr toks)) =
        key :: ((compact (uniq toks)).filter (fun t => t ≠ sdStr) ++ [sdStr])) ∧
    (∀ (key : String) (ts : List String),
      key ≠ "" → (∀ c ∈ key.data, isJsWs c = false) →
      (∀ t ∈ ts, t ≠ "" ∧ (∀ c ∈ t.data, isJsWs c = false) ∧
        (t ≠ sdStr → containsCI sdChars t.data = false)) →
      sdStr ∈ ts →
      wsTokens (buildSegment (key, DirValue.str (joinStr " " ts))) =
        key :: (ts.filter (fun t => t ≠ sdStr) ++ [sdStr])) ∧
    (∀ p : Policy, buildPolicy p = joinStr "; " (p.map buildSegment)) := by
  refine ⟨?_, ?_, fun p => rfl⟩
  · intro key toks hk1 hk2 htoks hsd
    refine segment_tokens_core key (DirValue.arr toks) (compact (uniq toks)) rfl hk1 hk2 ?_ ?_
    · intro t ht
      have h1 := List.mem_filter.mp ht
      have hne : t ≠ "" := by simpa using h1.2
      have hmem : t ∈ toks := (mem_uniq t toks).mp h1.1
      exact ⟨hne, (htoks t hmem).1, (htoks t hmem).2⟩
    · exact List.mem_filter.mpr ⟨(mem_uniq sdStr toks).mpr hsd, by decide⟩
  · intro key ts hk1 hk2 hts hsd
    exact segment_tokens_core key (DirValue.str (joinStr " " ts)) ts rfl hk1 hk2 hts hsd

/-- C2 counterexample to the unqualified claim: a directive token that
contains `'strict-dynamic'` as a substring does not keep its place — the
replacement splits it in two — so the proviso in the amended claim is
necessary. -/
theorem claim_C2_strict_dynamic_last_cex :
    sdStr ∈ (["'strict-dynamic'", "https://x/'strict-dynamic'/y"] : List String) ∧
    ("https://x/'strict-dynamic'/y" : String) ≠ sdStr ∧
    wsTokens (buildSegment ("script-src",
        DirValue.arr ["'strict-dynamic'", "https://x/'strict-dynamic'/y"])) =
      ["script-src", "https://x/", "/y", "'strict-dynamic'"] ∧
    wsTokens (buildSegment ("script-src",
        DirValue.arr ["'strict-dynamic'", "https://x/'strict-dynamic'/y"])) ≠
      "script-src" :: ((compact (uniq ["'strict-dynamic'", "https://x/'strict-dynamic'/y"])).filter
        (fun t => t ≠ sdStr) ++ [sdStr]) := by
  refine ⟨by decide, by decide, ?_, ?_⟩ <;> decide

/-- C2 witness: the amended claim applied at a concrete directive. -/
theorem claim_C2_strict_dynamic_last_witness :
    wsTokens (buildSegment ("script-src",
        DirValue.arr ["'strict-dynamic'", "'self'", "https://a.com"])) =
      "script-src" :: ((compact (uniq ["'strict-dynamic'", "'self'", "https://a.com"])).filter
        (fun t => t ≠ sdStr) ++ [sdStr]) :=
  claim_C2_strict_dynamic_last.1 "script-src" ["'strict-dynamic'", "'self'", "https://a.com"]
    (by decide) (by decide) (by decide) (by decide)

/-! ### Claim C7: the serialisation postcondition, with a spec-side serialiser. -/

/-- Modelled from the spec: de-duplication keeping first occurrences, written
as the head followed by deduplication of the tail with later duplicates of the
head removed (fuelled so it computes in the kernel). -/
def dedupSpecAux : Nat → List String → List String
  | _, [] => []
  | 0, _ :: _ => []
  | fuel + 1, x :: xs => x :: dedupSpecAux fuel (xs.filter (fun y => y ≠ x))

/-- Modelled from the spec: "de-duplicated keeping first occurrences". -/
def dedupSpec (xs : List String) : List String := dedupSpecAux xs.length xs

theorem dedupSpecAux_mono : ∀ (n : Nat) (l : List String), l.length ≤ n →
    ∀ f1 f2, l.length ≤ f1 → l.length ≤ f2 → dedupSpecAux f1 l = dedupSpecAux f2 l := by
  intro n
  induction n with
  | zero =>
    intro l hl f1 f2 _ _
    have hnil : l = [] := List.eq_nil_of_length_eq_zero (Nat.le_zero.mp hl)
    subst hnil
    cases f1 <;> cases f2 <;> rfl
  | succ n ih =>
    intro l hl f1 f2 h1 h2
    cases l with
    | nil => cases f1 <;> cases f2 <;> rfl
    | cons x xs =>
      cases f1 with
      | zero => exact absurd h1 (by simp)
      | succ g1 =>
        cases f2 with
        | zero => exact absurd h2 (by simp)
        | succ g2 =>
          show x :: dedupSpecAux g1 (xs.filter (fun y => y ≠ x)) =
            x :: dedupSpecAux g2 (xs.filter (fun y => y ≠ x))
          congr 1
          have hf : (xs.filter (fun y => y ≠ x)).length ≤ xs.length :=
            List.length_filter_le _ _
          have hxs : xs.length ≤ n := by simpa using Nat.le_of_succ_le_succ hl
          exact ih (xs.filter (fun y => y ≠ x)) (Nat.le_trans hf hxs) g1 g2
            (Nat.le_trans hf (Nat.le_of_succ_le_succ h1))
            (Nat.le_trans hf (Nat.le_of_succ_le_succ h2))

theorem dedupSpec_cons (x : String) (xs : List String) :
    dedupSpec (x :: xs) = x :: dedupSpec (xs.filter (fun y => y ≠ x)) := by
  unfold dedupSpec
  show x :: dedupSpecAux xs.length (xs.filter (fun y => y ≠ x)) =
    x :: dedupSpecAux (xs.filter (fun y => y ≠ x)).length (xs.filter (fun y => y ≠ x))
  congr 1
  exact dedupSpecAux_mono xs.length _ (List.length_filter_le _ _) _ _
    (List.length_filter_le _ _) Nat.le.refl

theorem uniqAux_eq_dedupSpec (xs : List String) : ∀ seen,
    uniqAux seen xs = dedupSpec (xs.filter (fun y => y ∉ seen)) := by
  induction xs with
  | nil => intro seen; rfl
  | cons y ys ih =>
    intro seen
    by_cases hy : y ∈ seen
    · rw [show uniqAux seen (y :: ys) = uniqAux seen ys from by simp [uniqAux, hy], ih seen]
      congr 1
      rw [List.filter_cons_of_neg (by simp [hy])]
    · rw [show uniqAux seen (y :: ys) = y :: uniqAux (y :: seen) ys from by simp [uniqAux, hy]]
      rw [List.filter_cons_of_pos (by simp [hy]), dedupSpec_cons]
      congr 1
      rw [ih (y :: seen)]
      congr 1
      rw [List.filter_filter]
      apply List.filter_congr
      intro a _
      by_cases h1 : a = y <;> by_cases h2 : a ∈ seen <;> simp [h1, h2]

theorem uniq_eq_dedupSpec (xs : List String) : uniq xs = dedupSpec xs := by
  unfold uniq
  rw [uniqAux_eq_dedupSpec xs []]
  congr 1
  simp

/-- Modelled from the spec: an array value is de-duplicated keeping first
occurrences, has empty entries dropped, and is joined with single spaces; a
string value passes through verbatim. -/
def serializeSpecVal : DirValue → String
  | .str s => s
  | .arr xs => joinStr " " ((dedupSpec xs).filter (fun s => s ≠ ""))

theorem serializeVal_eq_spec (v : DirValue) : serializeVal v = serializeSpecVal v := by
  cases v with
  | str s => rfl
  | arr xs =>
    show joinStr " " (compact (uniq xs)) = joinStr " " ((dedupSpec xs).filter (fun s => s ≠ ""))
    rw [uniq_eq_dedupSpec]
    rfl

/-- C7: `buildPolicy` emits directives in key order as segments joined with
`"; "` (conjunct 1); a segment whose serialised value does not contain
`'strict-dynamic'` is exactly `"<name> <value>"` (conjunct 2, the proviso the
amended claim needs: otherwise the relocation branch rewrites the value);
the serialised value agrees with the spec's description — array values
de-duplicated keeping first occurrences, empty entries dropped, space-joined,
string values verbatim (conjunct 3); the empty policy serialises to `""`
(conjunct 4); an empty-array directive serialises as `"<name> "` with a
trailing space (conjunct 5). -/
theorem claim_C7_serialization :
    (∀ p : Policy, buildPolicy p = joinStr "; " (p.map buildSegment)) ∧
    (∀ (key : String) (v : DirValue),
      containsExact sdChars (serializeVal v).data = false →
      buildSegment (key, v) = key ++ " " ++ serializeSpecVal v) ∧
    (∀ v : DirValue, serializeVal v = serializeSpecVal v) ∧
    buildPolicy [] = "" ∧
    (∀ name : String, buildPolicy [(name, DirValue.arr [])] = name ++ " ") := by
  refine ⟨fun p => rfl, ?_, serializeVal_eq_spec, rfl, ?_⟩
  · intro key v h
    have hseg : buildSegment (key, v) = if containsExact sdChars (serializeVal v).data
        then key ++ " " ++ (String.mk (jsTrimC (replaceSDC (serializeVal v).data)) ++ " " ++ sdStr)
        else key ++ " " ++ serializeVal v := rfl
    rw [hseg, if_neg (by simp [h]), serializeVal_eq_spec]
  · intro name
    show joinStr "; " [buildSegment (name, DirValue.arr [])] = name ++ " "
    have hseg : buildSegment (name, DirValue.arr []) =
        if containsExact sdChars (serializeVal (DirValue.arr [])).data
        then name ++ " " ++ (String.mk (jsTrimC (replaceSDC (serializeVal (DirValue.arr [])).data)) ++ " " ++ sdStr)
        else name ++ " " ++ serializeVal (DirValue.arr []) := rfl
    show buildSegment (name, DirValue.arr []) = name ++ " "
    rw [hseg, if_neg (by decide)]
    apply data_injective
    simp [String.data_append]
    rfl

/-- C7 counterexample to the unqualified claim: a string value containing
`'strict-dynamic'` is not passed through verbatim — the relocation branch
rewrites it. -/
theorem claim_C7_serialization_cex :
    buildPolicy [("script-src", DirValue.str "'strict-dynamic' 'self'")] ≠
      "script-src" ++ " " ++ "'strict-dynamic' 'self'" ∧
    buildPolicy [("script-src", DirValue.str "'strict-dynamic' 'self'")] =
      "script-src 'self' 'strict-dynamic'" := by
  constructor <;> decide

/-- C7 witness: the segment form applied at a concrete directive whose value
is free of `'strict-dynamic'`. -/
theorem claim_C7_serialization_witness :
    containsExact sdChars (serializeVal (DirValue.str "'self' https://a.com")).data = false ∧
    buildSegment ("default-src", DirValue.str "'self' https://a.com") =
      "default-src" ++ " " ++ serializeSpecVal (DirValue.str "'self' https://a.com") :=
  ⟨by decide, claim_C7_serialization.2.1 "default-src"
    (DirValue.str "'self' https://a.com") (by decide)⟩
